import Mathlib

/-! Detective Quest: the clue index and the two navigators.

A verification development over `Detective.c` (clue-collecting navigator and
binary search tree of clues) and `Quest.c` (plain navigator).

Modelling conventions.

* A C string is the list of its bytes before the terminating NUL, each byte
  an `unsigned char` value held in a `Nat`; the empty list is `""`.
* A pointer to a heap tree is the tree itself, `nil` standing for `NULL`.
* `salaAtual` is a pointer into the room tree; it is kept as the path of
  directions that leads from `hallDeEntrada` to the room it points at, so that
  writing through it (`salaAtual->pista[0] = 0`) is an update of the map at
  that path.
* Allocation is assumed to succeed (the `exit(EXIT_FAILURE)` branches are not
  modelled) and console output is dropped, except for the listing printed by
  `exibirPistas`, which is returned as a list of lines.
-/

namespace Detective

/-- A C string: its bytes up to, not including, the terminating NUL. -/
abbrev Texto := List Nat

/-- The predicate `bemFormado s` holds when every byte of `s` is a non-NUL
`unsigned char`, that is, when `s` is the content of a real C string. -/
def bemFormado (s : Texto) : Prop := ∀ b ∈ s, 0 < b ∧ b < 256

instance (s : Texto) : Decidable (bemFormado s) := by
  unfold bemFormado; infer_instance

/-- `strlen`. -/
def strlen (s : Texto) : Nat := s.length

/-- `strcmp(a, b)`, by its sign (the C standard fixes nothing more): bytes are
compared as `unsigned char` from the left, and a string that ends first
compares below one that goes on. -/
def strcmp : Texto → Texto → Int
  | [], [] => 0
  | [], _ :: _ => -1
  | _ :: _, [] => 1
  | a :: as, b :: bs => if a = b then strcmp as bs else if a < b then -1 else 1

/-- `strncpy(dst, src, n); dst[n] = 0` as used by `criarPistaNode` and
`criarSala`: the string left in `dst` is the first `n` bytes of `src`. -/
def strncpy (src : Texto) (n : Nat) : Texto := src.take n

/-- `struct PistaNode *`: `nil` is `NULL`. The field `pista` is a
`char[100]`. -/
inductive PistaNode where
  | nil : PistaNode
  | node (pista : Texto) (esquerda direita : PistaNode) : PistaNode
  deriving DecidableEq, Repr

/-- `criarPistaNode` (Detective.c 39-50): a fresh leaf holding the first
`sizeof(novo->pista) - 1 = 99` bytes of `pista`. -/
def criarPistaNode (pista : Texto) : PistaNode :=
  .node (strncpy pista 99) .nil .nil

/-- `inserirPista` (Detective.c 58-77). The argument `pista` is compared in
full against the stored text of each node met on the way down. -/
def inserirPista : PistaNode → Texto → PistaNode
  | .nil, pista => criarPistaNode pista
  | .node p e d, pista =>
    let comparacao := strcmp pista p
    if comparacao < 0 then .node p (inserirPista e pista) d
    else if comparacao > 0 then .node p e (inserirPista d pista)
    else .node p e d

/-- `exibirPistas` (Detective.c 83-89): the texts printed, one per line, by
the in-order traversal. -/
def exibirPistas : PistaNode → List Texto
  | .nil => []
  | .node p e d => exibirPistas e ++ p :: exibirPistas d

/-- Inserting a sequence of texts one after another, starting from `raiz`. -/
def inserirTodas (raiz : PistaNode) (pistas : List Texto) : PistaNode :=
  pistas.foldl inserirPista raiz

/-- Strictly ascending in `strcmp` order: every earlier line compares below
every later one. -/
def Crescente (l : List Texto) : Prop := l.Pairwise (fun a b => strcmp a b < 0)

instance (l : List Texto) : Decidable (Crescente l) := by
  unfold Crescente; infer_instance

/-! ### The mansion map (Detective.c) -/

/-- `struct Sala *` of Detective.c: `nil` is `NULL`; `nome` is a `char[50]`
and `pista` a `char[100]`, the empty text meaning that the room holds no
clue. -/
inductive Sala where
  | nil : Sala
  | node (nome pista : Texto) (esquerda direita : Sala) : Sala
  deriving DecidableEq, Repr

/-- `criarSala` (Detective.c 112-129): a room without children whose name is
the first 49 bytes of `nome` and whose clue is the first 99 bytes of
`pista`. -/
def criarSala (nome pista : Texto) : Sala :=
  .node (strncpy nome 49) (strncpy pista 99) .nil .nil

/-- The two pointer fields of a room. -/
inductive Direcao where
  | esquerda : Direcao
  | direita : Direcao
  deriving DecidableEq, Repr

/-- A pointer into the map, as the directions followed from the root. -/
abbrev Caminho := List Direcao

/-- `sala->esquerda` or `sala->direita`. -/
def Sala.filho : Sala → Direcao → Sala
  | .nil, _ => .nil
  | .node _ _ e _, .esquerda => e
  | .node _ _ _ d, .direita => d

/-- The room a path points at (`nil` when the path leaves the map). -/
def Sala.em (mapa : Sala) (c : Caminho) : Sala := c.foldl Sala.filho mapa

/-- `sala->pista`, read as a string. -/
def Sala.pista : Sala → Texto
  | .nil => []
  | .node _ p _ _ => p

/-- `sala->nome`, read as a string. -/
def Sala.nome : Sala → Texto
  | .nil => []
  | .node n _ _ _ => n

/-- `sala != NULL`. -/
def Sala.presente : Sala → Bool
  | .nil => false
  | .node _ _ _ _ => true

/-- The write `salaAtual->pista[0] = 0` (Detective.c 170) through the pointer
held as path `c`: the room at `c` now holds the empty string, everything else
is as before. -/
def Sala.limparPista : Sala → Caminho → Sala
  | .nil, _ => .nil
  | .node n _ e d, [] => .node n [] e d
  | .node n p e d, .esquerda :: c => .node n p (e.limparPista c) d
  | .node n p e d, .direita :: c => .node n p e (d.limparPista c)

/-- The map with every clue blanked: what is left is the shape and the room
names. -/
def Sala.forma : Sala → Sala
  | .nil => .nil
  | .node n _ e d => .node n [] e.forma d.forma

/-- Every room's name fits its `char[50]` and every clue its `char[100]`
(with the terminating NUL), as any map the C program can hold does. -/
def Sala.cabe : Sala → Bool
  | .nil => true
  | .node n p e d => decide (n.length ≤ 49) && decide (p.length ≤ 99) && e.cabe && d.cabe

/-- Every room's clue is the empty string. -/
def Sala.semPistas : Sala → Bool
  | .nil => true
  | .node _ p e d => decide (p = []) && e.semPistas && d.semPistas

/-- The assignments `sala->esquerda = e; sala->direita = d`. -/
def Sala.ligar : Sala → Sala → Sala → Sala
  | .nil, _, _ => .nil
  | .node n p _ _, e, d => .node n p e d

/-- The number of rooms of a map. -/
def Sala.contar : Sala → Nat
  | .nil => 0
  | .node _ _ e d => 1 + e.contar + d.contar

/-! ### The clue-collecting navigator (Detective.c) -/

/-- What one prompt yields: `escolha` after `tolower` is `e`, `d`, `s`, or
anything else (which includes a failed read, where `escolha` is a blank). -/
inductive Escolha where
  | esquerda : Escolha
  | direita : Escolha
  | sair : Escolha
  | invalida : Escolha
  deriving DecidableEq, Repr

/-- `tolower` on an ASCII byte. -/
def tolower (c : Nat) : Nat := if 65 ≤ c ∧ c ≤ 90 then c + 32 else c

/-- The branch of the `if` chain (Detective.c 195-212, Quest.c 91-108) taken
for the character read by `scanf`. -/
def lerEscolha (c : Nat) : Escolha :=
  let escolha := tolower c
  if escolha = 115 then .sair
  else if escolha = 101 then .esquerda
  else if escolha = 100 then .direita
  else .invalida

/-- The variables of `explorarSalasComPistas` together with the heap they
point into. -/
structure Estado where
  /-- The room tree rooted at `hallDeEntrada`, with its current clue fields. -/
  mapa : Sala
  /-- The pointer `salaAtual`, as a path from `hallDeEntrada`. -/
  atual : Caminho
  /-- The pointer `bstPistas`. -/
  bst : PistaNode
  /-- Whether the loop has been left through `break`. -/
  saiu : Bool
  deriving DecidableEq, Repr

/-- The room `salaAtual` points at. -/
def Estado.sala (s : Estado) : Sala := s.mapa.em s.atual

/-- The loop is over: it was left through `break`, or its condition
`salaAtual != NULL` fails. -/
def Estado.terminou (s : Estado) : Bool := s.saiu || !s.sala.presente

/-- The discovery step (Detective.c 162-173): when the current room's clue is
not empty it is inserted in the index and then blanked in the room. -/
def descobrir (s : Estado) : Estado :=
  if strlen s.sala.pista > 0 then
    { s with bst := inserirPista s.bst s.sala.pista, mapa := s.mapa.limparPista s.atual }
  else s

/-- The move step (Detective.c 195-212) for the choice just read. -/
def mover (s : Estado) : Escolha → Estado
  | .sair => { s with saiu := true }
  | .esquerda =>
    if (s.sala.filho .esquerda).presente then { s with atual := s.atual ++ [.esquerda] } else s
  | .direita =>
    if (s.sala.filho .direita).presente then { s with atual := s.atual ++ [.direita] } else s
  | .invalida => s

/-- One iteration of the `while` loop: discovery, then the move for the
choice `c`. -/
def passo (s : Estado) (c : Escolha) : Estado := mover (descobrir s) c

/-- The `while` loop (Detective.c 158-216) fed the choices `cs`. When the loop
is over the remaining choices are not read. When the choices run out with the
loop still going, the state handed back is the one in which the program waits
at the prompt: the discovery step of the current room has run. -/
def laco : Estado → List Escolha → Estado
  | s, [] => if s.terminou then s else descobrir s
  | s, c :: cs => if s.terminou then s else laco (passo s c) cs

/-- The paths of the rooms in which an iteration of the loop began, in order,
repeated when the navigator stayed where it was: the rooms it stood in. -/
def visitadas : Estado → List Escolha → List Caminho
  | s, [] => if s.terminou then [] else [s.atual]
  | s, c :: cs => if s.terminou then [] else s.atual :: visitadas (passo s c) cs

/-- The state on entry to `explorarSalasComPistas`. -/
def inicio (hallDeEntrada : Sala) (bstPistas : PistaNode) : Estado :=
  { mapa := hallDeEntrada, atual := [], bst := bstPistas, saiu := false }

/-- `explorarSalasComPistas` (Detective.c 152-219) on the choices `cs`: the
field `bst` of the result is the pointer returned, `mapa` the room tree as the
call leaves it, `atual` the room the navigator is in and `saiu` whether the
call returned through the choice `sair`. -/
def explorarSalasComPistas (hallDeEntrada : Sala) (bstPistas : PistaNode)
    (cs : List Escolha) : Estado :=
  laco (inicio hallDeEntrada bstPistas) cs

/-- What `main` prints between the two rules (Detective.c 272-276). -/
inductive Relatorio where
  | nenhumaPista : Relatorio
  | lista (linhas : List Texto) : Relatorio
  deriving DecidableEq, Repr

/-- The test `bstPistas == NULL` of `main` and the branch it selects. -/
def relatorioFinal : PistaNode → Relatorio
  | .nil => .nenhumaPista
  | .node p e d => .lista (exibirPistas (.node p e d))

/-! ### The map built by `main` (Detective.c 231-263) -/

/-- The bytes (UTF-8, as in the source file) of the literal "Hall de Entrada" (15 bytes). -/
def nomeHall : Texto :=
  [72, 97, 108, 108, 32, 100, 101, 32, 69, 110, 116, 114, 97, 100, 97]

/-- The bytes (UTF-8, as in the source file) of the literal "Sala de Estar" (13 bytes). -/
def nomeSalaDeEstar : Texto :=
  [83, 97, 108, 97, 32, 100, 101, 32, 69, 115, 116, 97, 114]

/-- The bytes (UTF-8, as in the source file) of the literal "Cozinha" (7 bytes). -/
def nomeCozinha : Texto :=
  [67, 111, 122, 105, 110, 104, 97]

/-- The bytes (UTF-8, as in the source file) of the literal "Jardim de Inverno" (17 bytes). -/
def nomeJardim : Texto :=
  [74, 97, 114, 100, 105, 109, 32, 100, 101, 32, 73, 110, 118, 101, 114, 110, 111]

/-- The bytes (UTF-8, as in the source file) of the literal "Escritório" (11 bytes). -/
def nomeEscritorio : Texto :=
  [69, 115, 99, 114, 105, 116, 195, 179, 114, 105, 111]

/-- The bytes (UTF-8, as in the source file) of the literal "Sala de Jantar" (14 bytes). -/
def nomeSalaDeJantar : Texto :=
  [83, 97, 108, 97, 32, 100, 101, 32, 74, 97, 110, 116, 97, 114]

/-- The bytes (UTF-8, as in the source file) of the literal "Quarto Principal" (16 bytes). -/
def nomeQuarto : Texto :=
  [81, 117, 97, 114, 116, 111, 32, 80, 114, 105, 110, 99, 105, 112, 97, 108]

/-- The bytes (UTF-8, as in the source file) of the literal "Biblioteca" (10 bytes). -/
def nomeBiblioteca : Texto :=
  [66, 105, 98, 108, 105, 111, 116, 101, 99, 97]

/-- The bytes (UTF-8, as in the source file) of the literal "Despensa" (8 bytes). -/
def nomeDespensa : Texto :=
  [68, 101, 115, 112, 101, 110, 115, 97]

/-- The bytes (UTF-8, as in the source file) of the literal "Porão" (6 bytes). -/
def nomePorao : Texto :=
  [80, 111, 114, 195, 163, 111]

/-- The bytes (UTF-8, as in the source file) of the literal "Banheiro" (8 bytes). -/
def nomeBanheiro : Texto :=
  [66, 97, 110, 104, 101, 105, 114, 111]

/-- The bytes (UTF-8, as in the source file) of the literal "A chave está sob o primeiro objeto pesado." (43 bytes). -/
def pistaHall : Texto :=
  [65, 32, 99, 104, 97, 118, 101, 32, 101, 115, 116, 195, 161, 32, 115, 111, 98, 32, 111,
   32, 112, 114, 105, 109, 101, 105, 114, 111, 32, 111, 98, 106, 101, 116, 111, 32, 112,
   101, 115, 97, 100, 111, 46]

/-- The bytes (UTF-8, as in the source file) of the literal "A vela queimada esconde um número." (35 bytes). -/
def pistaSalaDeEstar : Texto :=
  [65, 32, 118, 101, 108, 97, 32, 113, 117, 101, 105, 109, 97, 100, 97, 32, 101, 115, 99,
   111, 110, 100, 101, 32, 117, 109, 32, 110, 195, 186, 109, 101, 114, 111, 46]

/-- The bytes (UTF-8, as in the source file) of the literal "A resposta é a capital do Chile." (33 bytes). -/
def pistaJardim : Texto :=
  [65, 32, 114, 101, 115, 112, 111, 115, 116, 97, 32, 195, 169, 32, 97, 32, 99, 97, 112,
   105, 116, 97, 108, 32, 100, 111, 32, 67, 104, 105, 108, 101, 46]

/-- The bytes (UTF-8, as in the source file) of the literal "O culpado usa um chapéu vermelho." (34 bytes). -/
def pistaSalaDeJantar : Texto :=
  [79, 32, 99, 117, 108, 112, 97, 100, 111, 32, 117, 115, 97, 32, 117, 109, 32, 99, 104,
   97, 112, 195, 169, 117, 32, 118, 101, 114, 109, 101, 108, 104, 111, 46]

/-- The bytes (UTF-8, as in the source file) of the literal "O relógio parou às 04:15." (27 bytes). -/
def pistaQuarto : Texto :=
  [79, 32, 114, 101, 108, 195, 179, 103, 105, 111, 32, 112, 97, 114, 111, 117, 32, 195,
   160, 115, 32, 48, 52, 58, 49, 53, 46]

/-- The bytes (UTF-8, as in the source file) of the literal "O livro preferido é 'Crimes do Nilo'." (38 bytes). -/
def pistaDespensa : Texto :=
  [79, 32, 108, 105, 118, 114, 111, 32, 112, 114, 101, 102, 101, 114, 105, 100, 111, 32,
   195, 169, 32, 39, 67, 114, 105, 109, 101, 115, 32, 100, 111, 32, 78, 105, 108, 111, 39,
   46]

/-- The bytes (UTF-8, as in the source file) of the literal "Existe uma segunda porta secreta." (33 bytes). -/
def pistaPorao : Texto :=
  [69, 120, 105, 115, 116, 101, 32, 117, 109, 97, 32, 115, 101, 103, 117, 110, 100, 97, 32,
   112, 111, 114, 116, 97, 32, 115, 101, 99, 114, 101, 116, 97, 46]

/-- The eleven rooms wired as `main` wires them (Detective.c 235-263). -/
def mansao : Sala :=
  (criarSala nomeHall pistaHall).ligar
    ((criarSala nomeSalaDeEstar pistaSalaDeEstar).ligar
      (criarSala nomeJardim pistaJardim)
      ((criarSala nomeEscritorio []).ligar
        ((criarSala nomeQuarto pistaQuarto).ligar (criarSala nomeBanheiro []) .nil)
        (criarSala nomeBiblioteca [])))
    ((criarSala nomeCozinha []).ligar
      ((criarSala nomeSalaDeJantar pistaSalaDeJantar).ligar
        (criarSala nomeDespensa pistaDespensa)
        (criarSala nomePorao pistaPorao))
      .nil)

/-- The run of `main` of Detective.c on the choices `cs`. -/
def main (cs : List Escolha) : Relatorio :=
  relatorioFinal (explorarSalasComPistas mansao .nil cs).bst

/-! ### Measures and shapes the claims speak of -/

/-- The number of nodes of an index. -/
def PistaNode.contar : PistaNode → Nat
  | .nil => 0
  | .node _ e d => 1 + e.contar + d.contar

/-- The height of an index: the number of nodes on its longest way down. -/
def PistaNode.altura : PistaNode → Nat
  | .nil => 0
  | .node _ e d => 1 + max e.altura d.altura

/-- Every node has `esquerda == NULL`. -/
def PistaNode.semEsquerda : PistaNode → Bool
  | .nil => true
  | .node _ e d => decide (e = .nil) && d.semEsquerda

/-- Every node has `direita == NULL`. -/
def PistaNode.semDireita : PistaNode → Bool
  | .nil => true
  | .node _ e d => decide (d = .nil) && e.semDireita

/-- The ordering invariant of the index, node by node: every text stored in
the left subtree compares below the node's text, every text stored in the
right subtree compares above it, and both subtrees satisfy the same. -/
def PistaNode.ordenada : PistaNode → Prop
  | .nil => True
  | .node p e d =>
    (∀ y ∈ exibirPistas e, strcmp y p < 0) ∧ (∀ y ∈ exibirPistas d, strcmp p y < 0) ∧
      e.ordenada ∧ d.ordenada

/-- The chain that holds the given texts from the root down, each node the
right child of the one before and no node with a left child. -/
def cadeiaDireita : List Texto → PistaNode
  | [] => .nil
  | x :: xs => .node x .nil (cadeiaDireita xs)

/-- The chain that holds the given texts from the root down, each node the
left child of the one before and no node with a right child. -/
def cadeiaEsquerda : List Texto → PistaNode
  | [] => .nil
  | x :: xs => .node x (cadeiaEsquerda xs) .nil

/-- The height of the map below a room, the room included (`0` for
`NULL`). -/
def Sala.altura : Sala → Nat
  | .nil => 0
  | .node _ _ e d => 1 + max e.altura d.altura

/-- A map put together the way `main` does it: rooms come from `criarSala`
and are wired through their two pointer fields. -/
inductive Sala.Construida : Sala → Prop where
  | nil : Sala.Construida .nil
  | sala (nome pista : Texto) (e d : Sala) (he : Sala.Construida e) (hd : Sala.Construida d) :
      Sala.Construida ((criarSala nome pista).ligar e d)

/-- The room at path `q` is the room at path `p` or a room below it. -/
def Desce (p q : Caminho) : Prop := ∃ t, q = p ++ t

/-- The room at path `q` is a room below the room at path `p`, not that room
itself. -/
def DesceMais (p q : Caminho) : Prop := ∃ t, t ≠ [] ∧ q = p ++ t

/-- A sequence of rooms with every immediate repetition dropped: the rooms
entered, in order, when the sequence lists the room of each loop iteration. -/
def distintas : List Caminho → List Caminho
  | [] => []
  | [a] => [a]
  | a :: b :: l => if a = b then distintas (b :: l) else a :: distintas (b :: l)

/-- The number of loop iterations, on the choices `cs`, in which `salaAtual`
changed. -/
def movimentos : Estado → List Escolha → Nat
  | _, [] => 0
  | s, c :: cs =>
    if s.terminou then 0
    else (if (passo s c).atual = s.atual then 0 else 1) + movimentos (passo s c) cs

end Detective

/-! ### The plain navigator (Quest.c) -/

namespace Quest

open Detective (Texto strncpy Direcao Caminho Escolha)

/-- `struct Sala *` of Quest.c: a name and two children, no clue. -/
inductive Sala where
  | nil : Sala
  | node (nome : Texto) (esquerda direita : Sala) : Sala
  deriving DecidableEq, Repr

/-- `criarSala` (Quest.c 26-43), allocation succeeding. -/
def criarSala (nome : Texto) : Sala := .node (strncpy nome 49) .nil .nil

/-- `sala->esquerda` or `sala->direita`. -/
def Sala.filho : Sala → Direcao → Sala
  | .nil, _ => .nil
  | .node _ e _, .esquerda => e
  | .node _ _ d, .direita => d

/-- The room a path points at (`nil` when the path leaves the map). -/
def Sala.em (mapa : Sala) (c : Caminho) : Sala := c.foldl Sala.filho mapa

/-- `sala != NULL`. -/
def Sala.presente : Sala → Bool
  | .nil => false
  | .node _ _ _ => true

/-- The room has neither a left nor a right child (the test of Quest.c 63). -/
def Sala.folha (m : Sala) : Bool :=
  !(m.filho .esquerda).presente && !(m.filho .direita).presente

/-- How the loop of `explorarSalas` stands. -/
inductive Situacao where
  | explorando : Situacao
  | saiu : Situacao
  | semSaida : Situacao
  deriving DecidableEq, Repr

/-- The variables of `explorarSalas`; the map itself is never written. -/
structure Estado where
  /-- The pointer `salaAtual`, as a path from the root. -/
  atual : Caminho
  /-- Whether the loop goes on, and otherwise which `break` ended it. -/
  situacao : Situacao
  deriving DecidableEq, Repr

/-- The loop is over: a `break` was taken, or `salaAtual != NULL` fails. -/
def terminou (mapa : Sala) (s : Estado) : Bool :=
  decide (s.situacao ≠ .explorando) || !(mapa.em s.atual).presente

/-- The leaf test (Quest.c 63-66): a room with no child ends the loop before
anything is read. -/
def verificar (mapa : Sala) (s : Estado) : Estado :=
  if !((mapa.em s.atual).filho .esquerda).presente && !((mapa.em s.atual).filho .direita).presente
  then { s with situacao := .semSaida } else s

/-- The move step (Quest.c 91-108) for the choice just read. -/
def mover (mapa : Sala) (s : Estado) : Escolha → Estado
  | .sair => { s with situacao := .saiu }
  | .esquerda =>
    if ((mapa.em s.atual).filho .esquerda).presente then
      { s with atual := s.atual ++ [.esquerda] } else s
  | .direita =>
    if ((mapa.em s.atual).filho .direita).presente then
      { s with atual := s.atual ++ [.direita] } else s
  | .invalida => s

/-- The `while` loop (Quest.c 58-113) fed the choices `cs`; the second
component is the input left unread. -/
def laco (mapa : Sala) : Estado → List Escolha → Estado × List Escolha
  | s, [] => if terminou mapa s then (s, []) else (verificar mapa s, [])
  | s, c :: cs =>
    if terminou mapa s then (s, c :: cs)
    else if terminou mapa (verificar mapa s) then (verificar mapa s, c :: cs)
    else laco mapa (mover mapa s c) cs

/-- `explorarSalas` (Quest.c 51-116) on the choices `cs`. -/
def explorarSalas (mapa : Sala) (cs : List Escolha) : Estado × List Escolha :=
  laco mapa { atual := [], situacao := .explorando } cs

/-- The paths of the rooms in which an iteration of the loop began, in
order, repeated when the navigator stayed where it was. -/
def visitadas (mapa : Sala) : Estado → List Escolha → List Caminho
  | s, [] => if terminou mapa s then [] else [s.atual]
  | s, c :: cs =>
    if terminou mapa s then []
    else if terminou mapa (verificar mapa s) then [s.atual]
    else s.atual :: visitadas mapa (mover mapa s c) cs

/-- The number of loop iterations, on the choices `cs`, in which `salaAtual`
changed. -/
def movimentos (mapa : Sala) : Estado → List Escolha → Nat
  | _, [] => 0
  | s, c :: cs =>
    if terminou mapa s then 0
    else if terminou mapa (verificar mapa s) then 0
    else (if (mover mapa s c).atual = s.atual then 0 else 1)
      + movimentos mapa (mover mapa s c) cs

/-- The height of the map below a room, the room included (`0` for
`NULL`). -/
def Sala.altura : Sala → Nat
  | .nil => 0
  | .node _ e d => 1 + max e.altura d.altura

/-- The map of Quest.c with the shape and the room names of a map of
Detective.c: the same rooms without their clue field. -/
def Sala.deDetective : Detective.Sala → Sala
  | .nil => .nil
  | .node n _ e d => .node n (Sala.deDetective e) (Sala.deDetective d)

/-- The state on entry to `explorarSalas`. -/
def inicio : Estado := { atual := [], situacao := .explorando }

end Quest

namespace Detective

/-! ## `strcmp` is a strict total order on texts -/

theorem strcmp_self (a : Texto) : strcmp a a = 0 := by
  induction a with
  | nil => rfl
  | cons x xs ih => simp [strcmp, ih]

theorem strcmp_eq_zero {a b : Texto} : strcmp a b = 0 ↔ a = b := by
  constructor
  · intro h
    induction a generalizing b with
    | nil => cases b with
      | nil => rfl
      | cons y ys => simp [strcmp] at h
    | cons x xs ih => cases b with
      | nil => simp [strcmp] at h
      | cons y ys =>
        by_cases hxy : x = y
        · simp [strcmp, hxy] at h
          rw [hxy, ih h]
        · by_cases hlt : x < y <;> simp [strcmp, hxy, hlt] at h
  · rintro rfl
    exact strcmp_self a

theorem strcmp_pos_iff {a b : Texto} : 0 < strcmp a b ↔ strcmp b a < 0 := by
  induction a generalizing b with
  | nil => cases b <;> simp [strcmp]
  | cons x xs ih => cases b with
    | nil => simp [strcmp]
    | cons y ys =>
      by_cases hxy : x = y
      · subst hxy
        simp [strcmp, ih]
      · have hyx : ¬ y = x := fun h => hxy h.symm
        by_cases hlt : x < y
        · have : ¬ y < x := by omega
          simp [strcmp, hxy, hyx, hlt, this]
        · have : y < x := by omega
          simp [strcmp, hxy, hyx, hlt, this]

theorem strcmp_trans {a b c : Texto} (hab : strcmp a b < 0) (hbc : strcmp b c < 0) :
    strcmp a c < 0 := by
  induction a generalizing b c with
  | nil => cases c with
    | nil => cases b <;> simp [strcmp] at hab hbc
    | cons z zs => simp [strcmp]
  | cons x xs ih => cases b with
    | nil => simp [strcmp] at hab
    | cons y ys => cases c with
      | nil => simp [strcmp] at hbc
      | cons z zs =>
        by_cases hxy : x = y
        · subst hxy
          by_cases hxz : x = z
          · subst hxz
            simp only [strcmp, if_true] at hab hbc ⊢
            exact ih hab hbc
          · by_cases hlt : x < z
            · simp [strcmp, hxz, hlt]
            · simp [strcmp, hxz, hlt] at hbc
        · by_cases hlt : x < y
          · by_cases hyz : y = z
            · subst hyz
              simp [strcmp, hxy, hlt]
            · by_cases hlt2 : y < z
              · have h1 : ¬ x = z := by omega
                have h2 : x < z := by omega
                simp [strcmp, h1, h2]
              · simp [strcmp, hyz, hlt2] at hbc
          · simp [strcmp, hxy, hlt] at hab

theorem strcmp_irrefl (a : Texto) : ¬ strcmp a a < 0 := by
  simp [strcmp_self]

/-! ## The clue index -/

theorem strncpy_curto {x : Texto} {n : Nat} (hx : x.length ≤ n) : strncpy x n = x := by
  unfold strncpy
  exact List.take_of_length_le hx

theorem exibirPistas_criar {x : Texto} (hx : x.length ≤ 99) :
    exibirPistas (criarPistaNode x) = [x] := by
  simp [criarPistaNode, exibirPistas, strncpy_curto hx]

theorem mem_exibirPistas_inserir {x : Texto} (hx : x.length ≤ 99) (t : PistaNode) (y : Texto) :
    y ∈ exibirPistas (inserirPista t x) ↔ y ∈ exibirPistas t ∨ y = x := by
  induction t with
  | nil =>
    rw [inserirPista, exibirPistas_criar hx]
    simp [exibirPistas]
  | node p e d ihe ihd =>
    simp only [inserirPista]
    by_cases h1 : strcmp x p < 0
    · simp only [h1, if_true, exibirPistas, List.mem_append, List.mem_cons, ihe]
      tauto
    · by_cases h2 : 0 < strcmp x p
      · simp only [h1, h2, if_true, if_false, gt_iff_lt, exibirPistas, List.mem_append,
          List.mem_cons, ihd]
        tauto
      · have h0 : strcmp x p = 0 := by omega
        have hxp : x = p := strcmp_eq_zero.mp h0
        simp only [h1, h2, if_false, gt_iff_lt, exibirPistas, List.mem_append, List.mem_cons]
        constructor
        · intro h; exact Or.inl h
        · rintro (h | h)
          · exact h
          · right; left; rw [h, hxp]

theorem crescente_inserir {x : Texto} (hx : x.length ≤ 99) (t : PistaNode)
    (ht : Crescente (exibirPistas t)) : Crescente (exibirPistas (inserirPista t x)) := by
  induction t with
  | nil =>
    rw [inserirPista, exibirPistas_criar hx]
    simp [Crescente]
  | node p e d ihe ihd =>
    unfold Crescente at ht
    simp only [exibirPistas, List.pairwise_append, List.pairwise_cons, List.mem_cons] at ht
    obtain ⟨he, ⟨hpd, hd⟩, hed⟩ := ht
    simp only [inserirPista]
    by_cases h1 : strcmp x p < 0
    · simp only [h1, if_true, exibirPistas]
      unfold Crescente
      simp only [List.pairwise_append, List.pairwise_cons, List.mem_cons]
      refine ⟨ihe he, ⟨hpd, hd⟩, ?_⟩
      intro a ha b hb
      rcases (mem_exibirPistas_inserir hx e a).mp ha with ha | ha
      · exact hed a ha b hb
      · subst ha
        rcases hb with hb | hb
        · subst hb; exact h1
        · exact strcmp_trans h1 (hpd b hb)
    · by_cases h2 : 0 < strcmp x p
      · simp only [h1, h2, if_true, if_false, gt_iff_lt, exibirPistas]
        unfold Crescente
        simp only [List.pairwise_append, List.pairwise_cons, List.mem_cons]
        have hpx : strcmp p x < 0 := strcmp_pos_iff.mp h2
        refine ⟨he, ⟨?_, ihd hd⟩, ?_⟩
        · intro b hb
          rcases (mem_exibirPistas_inserir hx d b).mp hb with hb | hb
          · exact hpd b hb
          · subst hb; exact hpx
        · intro a ha b hb
          rcases hb with hb | hb
          · exact hed a ha b (Or.inl hb)
          · rcases (mem_exibirPistas_inserir hx d b).mp hb with hb | hb
            · exact hed a ha b (Or.inr hb)
            · subst hb
              exact strcmp_trans (hed a ha p (Or.inl rfl)) hpx
      · simp only [h1, h2, if_false, gt_iff_lt, exibirPistas]
        unfold Crescente
        simp only [List.pairwise_append, List.pairwise_cons, List.mem_cons]
        exact ⟨he, ⟨hpd, hd⟩, hed⟩

theorem crescente_nodup {l : List Texto} (h : Crescente l) : l.Nodup := by
  unfold Crescente at h
  exact h.imp (fun {a b} hab heq => by subst heq; exact strcmp_irrefl a hab)

theorem crescente_inserirTodas (xs : List Texto) (hxs : ∀ x ∈ xs, x.length ≤ 99)
    (t : PistaNode) (ht : Crescente (exibirPistas t)) :
    Crescente (exibirPistas (inserirTodas t xs)) := by
  induction xs generalizing t with
  | nil => exact ht
  | cons x xs ih =>
    simp only [inserirTodas, List.foldl_cons]
    exact ih (fun y hy => hxs y (List.mem_cons_of_mem x hy)) _
      (crescente_inserir (hxs x (List.mem_cons_self x xs)) t ht)

theorem inserirPista_inserirPista {x : Texto} (hx : x.length ≤ 99) (t : PistaNode) :
    inserirPista (inserirPista t x) x = inserirPista t x := by
  induction t with
  | nil =>
    simp [inserirPista, criarPistaNode, strncpy_curto hx, strcmp_self]
  | node p e d ihe ihd =>
    by_cases h1 : strcmp x p < 0
    · simp [inserirPista, h1, ihe]
    · by_cases h2 : 0 < strcmp x p
      · simp [inserirPista, h1, h2, ihd]
      · simp [inserirPista, h1, h2]

theorem mem_exibirPistas_inserirTodas (xs : List Texto) (hxs : ∀ x ∈ xs, x.length ≤ 99)
    (t : PistaNode) (y : Texto) :
    y ∈ exibirPistas (inserirTodas t xs) ↔ y ∈ exibirPistas t ∨ y ∈ xs := by
  induction xs generalizing t with
  | nil => simp [inserirTodas]
  | cons x xs ih =>
    simp only [inserirTodas, List.foldl_cons]
    have h := ih (fun z hz => hxs z (List.mem_cons_of_mem x hz)) (inserirPista t x)
    simp only [inserirTodas] at h
    rw [h, mem_exibirPistas_inserir (hxs x (List.mem_cons_self x xs)), List.mem_cons]
    tauto

/-- A text already listed by an ordered index is found on the way down, and
the index comes back as it was. -/
theorem inserirPista_presente {x : Texto} (t : PistaNode) (ht : Crescente (exibirPistas t))
    (hx : x ∈ exibirPistas t) : inserirPista t x = t := by
  induction t with
  | nil => simp [exibirPistas] at hx
  | node p e d ihe ihd =>
    unfold Crescente at ht
    simp only [exibirPistas, List.pairwise_append, List.pairwise_cons, List.mem_cons] at ht
    obtain ⟨he, ⟨hpd, hd⟩, hed⟩ := ht
    simp only [exibirPistas, List.mem_append, List.mem_cons] at hx
    simp only [inserirPista]
    by_cases h1 : strcmp x p < 0
    · simp only [h1, if_true]
      rcases hx with hx | hx | hx
      · rw [ihe he hx]
      · subst hx; exact absurd h1 (strcmp_irrefl x)
      · exact absurd (strcmp_trans h1 (hpd x hx)) (strcmp_irrefl x)
    · by_cases h2 : 0 < strcmp x p
      · simp only [h1, h2, if_true, if_false, gt_iff_lt]
        have hpx : strcmp p x < 0 := strcmp_pos_iff.mp h2
        rcases hx with hx | hx | hx
        · exact absurd (strcmp_trans (hed x hx p (Or.inl rfl)) hpx) (strcmp_irrefl x)
        · subst hx; exact absurd hpx (strcmp_irrefl x)
        · rw [ihd hd hx]
      · simp only [h1, h2, if_false, gt_iff_lt]

/-- A text not yet listed by an ordered index lands between the lines below
it and the lines above it. -/
theorem exibirPistas_inserir_ausente {x : Texto} (hlen : x.length ≤ 99) (t : PistaNode)
    (ht : Crescente (exibirPistas t)) (hx : x ∉ exibirPistas t) :
    ∃ l1 l2, exibirPistas t = l1 ++ l2 ∧ exibirPistas (inserirPista t x) = l1 ++ x :: l2 ∧
      (∀ y ∈ l1, strcmp y x < 0) ∧ (∀ y ∈ l2, strcmp x y < 0) := by
  induction t with
  | nil =>
    refine ⟨[], [], by simp [exibirPistas], ?_, by simp, by simp⟩
    rw [inserirPista, exibirPistas_criar hlen]
    rfl
  | node p e d ihe ihd =>
    unfold Crescente at ht
    simp only [exibirPistas, List.pairwise_append, List.pairwise_cons, List.mem_cons] at ht
    obtain ⟨he, ⟨hpd, hd⟩, hed⟩ := ht
    simp only [exibirPistas, List.mem_append, List.mem_cons, not_or] at hx
    obtain ⟨hxe, hxp, hxd⟩ := hx
    simp only [inserirPista]
    by_cases h1 : strcmp x p < 0
    · obtain ⟨l1, l2, h12, hins, hl1, hl2⟩ := ihe he hxe
      refine ⟨l1, l2 ++ p :: exibirPistas d, ?_, ?_, hl1, ?_⟩
      · simp [exibirPistas, h12]
      · simp [h1, exibirPistas, hins]
      · intro y hy
        rcases List.mem_append.mp hy with hy | hy
        · exact hl2 y hy
        · rcases List.mem_cons.mp hy with hy | hy
          · subst hy; exact h1
          · exact strcmp_trans h1 (hpd y hy)
    · by_cases h2 : 0 < strcmp x p
      · have hpx : strcmp p x < 0 := strcmp_pos_iff.mp h2
        obtain ⟨l1, l2, h12, hins, hl1, hl2⟩ := ihd hd hxd
        refine ⟨exibirPistas e ++ p :: l1, l2, ?_, ?_, ?_, hl2⟩
        · simp [exibirPistas, h12]
        · simp [h1, h2, exibirPistas, hins]
        · intro y hy
          rcases List.mem_append.mp hy with hy | hy
          · exact strcmp_trans (hed y hy p (Or.inl rfl)) hpx
          · rcases List.mem_cons.mp hy with hy | hy
            · subst hy; exact hpx
            · exact hl1 y hy
      · have h0 : strcmp x p = 0 := by omega
        exact absurd (strcmp_eq_zero.mp h0) hxp

/-! ## Claims on the clue index -/

/-- C1, as the code has it: for every finite sequence of clue texts of at most
99 bytes each, inserted one after another with `inserirPista` into the empty
index in any order and with repetitions, the in-order listing of
`exibirPistas` is strictly ascending in `strcmp` order, has no repeated line,
and lists exactly the texts inserted. -/
theorem inserirTodas_crescente_sem_repeticao (xs : List Texto)
    (hxs : ∀ x ∈ xs, x.length ≤ 99) :
    Crescente (exibirPistas (inserirTodas .nil xs)) ∧
      (exibirPistas (inserirTodas .nil xs)).Nodup ∧
      ∀ y, y ∈ exibirPistas (inserirTodas .nil xs) ↔ y ∈ xs := by
  have hc : Crescente (exibirPistas (inserirTodas .nil xs)) :=
    crescente_inserirTodas xs hxs .nil (by simp [exibirPistas, Crescente])
  refine ⟨hc, crescente_nodup hc, ?_⟩
  intro y
  rw [mem_exibirPistas_inserirTodas xs hxs]
  simp [exibirPistas]

/-- C1 at the texts `b`, `a`, `b`, `ab`, `a`: the listing is `a`, `ab`, `b`. -/
theorem inserirTodas_crescente_sem_repeticao_witness :
    (∀ x ∈ [[98], [97], [98], [97, 98], [97]], List.length x ≤ 99) ∧
      exibirPistas (inserirTodas .nil [[98], [97], [98], [97, 98], [97]])
        = [[97], [97, 98], [98]] ∧
      Crescente (exibirPistas (inserirTodas .nil [[98], [97], [98], [97, 98], [97]])) ∧
      (exibirPistas (inserirTodas .nil [[98], [97], [98], [97, 98], [97]])).Nodup :=
  ⟨by decide, by decide,
    (inserirTodas_crescente_sem_repeticao [[98], [97], [98], [97, 98], [97]] (by decide)).1,
    (inserirTodas_crescente_sem_repeticao [[98], [97], [98], [97, 98], [97]] (by decide)).2.1⟩

/-- C1 fails as stated: a text of 100 bytes `a` inserted twice into the empty
index is stored twice (each time cut to 99 bytes, the second insertion
comparing the full text above the stored one), so the listing repeats a line
and is not strictly ascending. -/
theorem inserirTodas_texto_longo_repetido :
    bemFormado (List.replicate 100 97) ∧
      exibirPistas (inserirTodas .nil [List.replicate 100 97, List.replicate 100 97])
        = [List.replicate 99 97, List.replicate 99 97] ∧
      ¬ Crescente
        (exibirPistas (inserirTodas .nil [List.replicate 100 97, List.replicate 100 97])) ∧
      ¬ (exibirPistas
        (inserirTodas .nil [List.replicate 100 97, List.replicate 100 97])).Nodup := by
  decide

/-- C2, as the code has it: for every index `t` whose in-order listing is
strictly ascending and every text `x` of at most 99 bytes, the listing of
`inserirPista t x` is the listing of `t` when `x` is already listed and
otherwise the listing of `t` with `x` put between the lines that compare below
it and the lines that compare above it; either way the result lists `x`, keeps
every line of `t` and is strictly ascending. -/
theorem inserirPista_listagem (t : PistaNode) (x : Texto)
    (ht : Crescente (exibirPistas t)) (hx : x.length ≤ 99) :
    (x ∈ exibirPistas t → exibirPistas (inserirPista t x) = exibirPistas t) ∧
      (x ∉ exibirPistas t →
        ∃ l1 l2, exibirPistas t = l1 ++ l2 ∧
          exibirPistas (inserirPista t x) = l1 ++ x :: l2 ∧
          (∀ y ∈ l1, strcmp y x < 0) ∧ (∀ y ∈ l2, strcmp x y < 0)) ∧
      x ∈ exibirPistas (inserirPista t x) ∧
      (∀ y ∈ exibirPistas t, y ∈ exibirPistas (inserirPista t x)) ∧
      Crescente (exibirPistas (inserirPista t x)) := by
  refine ⟨?_, exibirPistas_inserir_ausente hx t ht, ?_, ?_, crescente_inserir hx t ht⟩
  · intro h
    rw [inserirPista_presente t ht h]
  · exact (mem_exibirPistas_inserir hx t x).mpr (Or.inr rfl)
  · intro y hy
    exact (mem_exibirPistas_inserir hx t y).mpr (Or.inl hy)

/-- C2 at the index listing `a`, `c` and the text `b`. -/
theorem inserirPista_listagem_witness :
    Crescente (exibirPistas (.node [97] .nil (.node [99] .nil .nil))) ∧
      List.length [98] ≤ 99 ∧
      exibirPistas (inserirPista (.node [97] .nil (.node [99] .nil .nil)) [98])
        = [[97], [98], [99]] ∧
      [98] ∈ exibirPistas (inserirPista (.node [97] .nil (.node [99] .nil .nil)) [98]) :=
  ⟨by decide, by decide, by decide,
    (inserirPista_listagem (.node [97] .nil (.node [99] .nil .nil)) [98]
      (by decide) (by decide)).2.2.1⟩

/-- C2 fails as stated: the empty index has a strictly ascending listing and
does not list the 100-byte text `x`, yet the listing of `inserirPista nil x` is
not the old listing with `x` added and does not contain `x`: it holds the
first 99 bytes of `x`. -/
theorem inserirPista_texto_longo_ausente :
    bemFormado (List.replicate 100 98) ∧
      Crescente (exibirPistas .nil) ∧
      List.replicate 100 98 ∉ exibirPistas .nil ∧
      exibirPistas (inserirPista .nil (List.replicate 100 98)) = [List.replicate 99 98] ∧
      List.replicate 100 98 ∉ exibirPistas (inserirPista .nil (List.replicate 100 98)) := by
  decide

/-- C3, as the code has it: for every index `t`, ordered or not, and every text
`x` of at most 99 bytes, inserting `x` a second time changes nothing: the tree
is the same and so is its in-order listing. -/
theorem inserirPista_duas_vezes (t : PistaNode) (x : Texto) (hx : x.length ≤ 99) :
    exibirPistas (inserirPista (inserirPista t x) x) = exibirPistas (inserirPista t x) := by
  rw [inserirPista_inserirPista hx t]

/-- C3 at an index that is not ordered (`b` above `a` on the right) and the
text `c`. -/
theorem inserirPista_duas_vezes_witness :
    List.length [99] ≤ 99 ∧
      exibirPistas (inserirPista (inserirPista (.node [98] .nil (.node [97] .nil .nil)) [99]) [99])
        = exibirPistas (inserirPista (.node [98] .nil (.node [97] .nil .nil)) [99]) :=
  ⟨by decide, inserirPista_duas_vezes (.node [98] .nil (.node [97] .nil .nil)) [99] (by decide)⟩

/-- C3 fails as stated: inserting the 100-byte text `x` once into the empty
index lists one line, inserting it twice lists two. -/
theorem inserirPista_duas_vezes_texto_longo :
    bemFormado (List.replicate 100 99) ∧
      exibirPistas (inserirPista .nil (List.replicate 100 99)) = [List.replicate 99 99] ∧
      exibirPistas (inserirPista (inserirPista .nil (List.replicate 100 99))
        (List.replicate 100 99)) = [List.replicate 99 99, List.replicate 99 99] ∧
      exibirPistas (inserirPista (inserirPista .nil (List.replicate 100 99))
        (List.replicate 100 99)) ≠ exibirPistas (inserirPista .nil (List.replicate 100 99)) := by
  decide

/-! ## The map under the clue-clearing write -/

theorem Sala.em_nil (c : Caminho) : Sala.nil.em c = .nil := by
  induction c with
  | nil => rfl
  | cons d c ih => simpa [Sala.em, Sala.filho] using ih

theorem Sala.em_cons (m : Sala) (d : Direcao) (c : Caminho) :
    m.em (d :: c) = (m.filho d).em c := rfl

theorem Sala.em_append (m : Sala) (p q : Caminho) : m.em (p ++ q) = (m.em p).em q := by
  simp [Sala.em, List.foldl_append]

theorem Sala.em_snoc (m : Sala) (p : Caminho) (d : Direcao) :
    m.em (p ++ [d]) = (m.em p).filho d := by
  simp [Sala.em, List.foldl_append]

/-- Reading a clue after the write at `p`: empty at `p`, as before anywhere
else. -/
theorem Sala.pista_em_limparPista (m : Sala) (p q : Caminho) :
    ((m.limparPista p).em q).pista = if q = p then [] else (m.em q).pista := by
  induction m generalizing p q with
  | nil => simp [Sala.limparPista, Sala.em_nil, Sala.pista]
  | node n c e d ihe ihd =>
    cases p with
    | nil =>
      cases q with
      | nil => simp [Sala.limparPista, Sala.em, Sala.pista]
      | cons x q => cases x <;> simp [Sala.limparPista, Sala.em_cons, Sala.filho]
    | cons y p =>
      cases y with
      | esquerda =>
        cases q with
        | nil => simp [Sala.limparPista, Sala.em, Sala.pista]
        | cons x q =>
          cases x with
          | esquerda => simp [Sala.limparPista, Sala.em_cons, Sala.filho, ihe]
          | direita => simp [Sala.limparPista, Sala.em_cons, Sala.filho]
      | direita =>
        cases q with
        | nil => simp [Sala.limparPista, Sala.em, Sala.pista]
        | cons x q =>
          cases x with
          | esquerda => simp [Sala.limparPista, Sala.em_cons, Sala.filho]
          | direita => simp [Sala.limparPista, Sala.em_cons, Sala.filho, ihd]

/-- The write does not add or remove a room. -/
theorem Sala.presente_em_limparPista (m : Sala) (p q : Caminho) :
    ((m.limparPista p).em q).presente = (m.em q).presente := by
  induction m generalizing p q with
  | nil => simp [Sala.limparPista]
  | node n c e d ihe ihd =>
    cases p with
    | nil =>
      cases q with
      | nil => simp [Sala.limparPista, Sala.em, Sala.presente]
      | cons x q => cases x <;> simp [Sala.limparPista, Sala.em_cons, Sala.filho]
    | cons y p =>
      cases y with
      | esquerda =>
        cases q with
        | nil => simp [Sala.limparPista, Sala.em, Sala.presente]
        | cons x q =>
          cases x with
          | esquerda => simp [Sala.limparPista, Sala.em_cons, Sala.filho, ihe]
          | direita => simp [Sala.limparPista, Sala.em_cons, Sala.filho]
      | direita =>
        cases q with
        | nil => simp [Sala.limparPista, Sala.em, Sala.presente]
        | cons x q =>
          cases x with
          | esquerda => simp [Sala.limparPista, Sala.em_cons, Sala.filho]
          | direita => simp [Sala.limparPista, Sala.em_cons, Sala.filho, ihd]

/-- The write does not change a room name. -/
theorem Sala.nome_em_limparPista (m : Sala) (p q : Caminho) :
    ((m.limparPista p).em q).nome = (m.em q).nome := by
  induction m generalizing p q with
  | nil => simp [Sala.limparPista]
  | node n c e d ihe ihd =>
    cases p with
    | nil =>
      cases q with
      | nil => simp [Sala.limparPista, Sala.em, Sala.nome]
      | cons x q => cases x <;> simp [Sala.limparPista, Sala.em_cons, Sala.filho]
    | cons y p =>
      cases y with
      | esquerda =>
        cases q with
        | nil => simp [Sala.limparPista, Sala.em, Sala.nome]
        | cons x q =>
          cases x with
          | esquerda => simp [Sala.limparPista, Sala.em_cons, Sala.filho, ihe]
          | direita => simp [Sala.limparPista, Sala.em_cons, Sala.filho]
      | direita =>
        cases q with
        | nil => simp [Sala.limparPista, Sala.em, Sala.nome]
        | cons x q =>
          cases x with
          | esquerda => simp [Sala.limparPista, Sala.em_cons, Sala.filho]
          | direita => simp [Sala.limparPista, Sala.em_cons, Sala.filho, ihd]

theorem Sala.forma_limparPista (m : Sala) (p : Caminho) : (m.limparPista p).forma = m.forma := by
  induction m generalizing p with
  | nil => simp [Sala.limparPista]
  | node n c e d ihe ihd =>
    cases p with
    | nil => simp [Sala.limparPista, Sala.forma]
    | cons y p => cases y <;> simp [Sala.limparPista, Sala.forma, ihe, ihd]

theorem Sala.cabe_limparPista (m : Sala) (p : Caminho) (h : m.cabe = true) :
    (m.limparPista p).cabe = true := by
  induction m generalizing p with
  | nil => simp [Sala.limparPista, Sala.cabe]
  | node n c e d ihe ihd =>
    simp only [Sala.cabe, Bool.and_eq_true, decide_eq_true_eq] at h
    obtain ⟨⟨⟨hn, hc⟩, he⟩, hd⟩ := h
    cases p with
    | nil => simp [Sala.limparPista, Sala.cabe, hn, he, hd]
    | cons y p =>
      cases y
      · simp [Sala.limparPista, Sala.cabe, hn, hc, ihe p he, hd]
      · simp [Sala.limparPista, Sala.cabe, hn, hc, he, ihd p hd]

theorem Sala.pista_length_of_cabe (m : Sala) (q : Caminho) (h : m.cabe = true) :
    (m.em q).pista.length ≤ 99 := by
  induction m generalizing q with
  | nil => simp [Sala.em_nil, Sala.pista]
  | node n c e d ihe ihd =>
    simp only [Sala.cabe, Bool.and_eq_true, decide_eq_true_eq] at h
    obtain ⟨⟨⟨hn, hc⟩, he⟩, hd⟩ := h
    cases q with
    | nil => simpa [Sala.em, Sala.pista] using hc
    | cons x q =>
      cases x
      · simpa [Sala.em_cons, Sala.filho] using ihe q he
      · simpa [Sala.em_cons, Sala.filho] using ihd q hd

theorem Sala.pista_of_semPistas (m : Sala) (q : Caminho) (h : m.semPistas = true) :
    (m.em q).pista = [] := by
  induction m generalizing q with
  | nil => simp [Sala.em_nil, Sala.pista]
  | node n c e d ihe ihd =>
    simp only [Sala.semPistas, Bool.and_eq_true, decide_eq_true_eq] at h
    obtain ⟨⟨hc, he⟩, hd⟩ := h
    cases q with
    | nil => simpa [Sala.em, Sala.pista] using hc
    | cons x q =>
      cases x
      · simpa [Sala.em_cons, Sala.filho] using ihe q he
      · simpa [Sala.em_cons, Sala.filho] using ihd q hd

/-! ## The steps of the clue-collecting navigator -/

@[simp]
theorem descobrir_atual (s : Estado) : (descobrir s).atual = s.atual := by
  unfold descobrir; split <;> rfl

@[simp]
theorem descobrir_saiu (s : Estado) : (descobrir s).saiu = s.saiu := by
  unfold descobrir; split <;> rfl

@[simp]
theorem mover_mapa (s : Estado) (c : Escolha) : (mover s c).mapa = s.mapa := by
  cases c <;> simp only [mover] <;> (try split) <;> rfl

@[simp]
theorem mover_bst (s : Estado) (c : Escolha) : (mover s c).bst = s.bst := by
  cases c <;> simp only [mover] <;> (try split) <;> rfl

theorem strlen_pos_iff (x : Texto) : strlen x > 0 ↔ x ≠ [] := by
  cases x <;> simp [strlen]

theorem descobrir_pista (s : Estado) (q : Caminho) :
    ((descobrir s).mapa.em q).pista = if q = s.atual then [] else (s.mapa.em q).pista := by
  unfold descobrir
  split
  · exact Sala.pista_em_limparPista s.mapa s.atual q
  · rename_i h
    have h0 : (s.mapa.em s.atual).pista = [] := by
      by_contra hne
      exact h ((strlen_pos_iff _).mpr hne)
    by_cases hq : q = s.atual
    · simp [hq, h0]
    · simp [hq]

theorem descobrir_presente (s : Estado) (q : Caminho) :
    ((descobrir s).mapa.em q).presente = (s.mapa.em q).presente := by
  unfold descobrir
  split
  · exact Sala.presente_em_limparPista s.mapa s.atual q
  · rfl

theorem descobrir_nome (s : Estado) (q : Caminho) :
    ((descobrir s).mapa.em q).nome = (s.mapa.em q).nome := by
  unfold descobrir
  split
  · exact Sala.nome_em_limparPista s.mapa s.atual q
  · rfl

theorem descobrir_forma (s : Estado) : (descobrir s).mapa.forma = s.mapa.forma := by
  unfold descobrir
  split
  · exact Sala.forma_limparPista s.mapa s.atual
  · rfl

theorem descobrir_cabe (s : Estado) (h : s.mapa.cabe = true) :
    (descobrir s).mapa.cabe = true := by
  unfold descobrir
  split
  · exact Sala.cabe_limparPista s.mapa s.atual h
  · exact h

theorem descobrir_terminou (s : Estado) : (descobrir s).terminou = s.terminou := by
  simp [Estado.terminou, Estado.sala, descobrir_presente]

/-- In a room that holds no clue the discovery step changes nothing. -/
theorem descobrir_sem_pista (s : Estado) (h : (s.mapa.em s.atual).pista = []) :
    descobrir s = s := by
  unfold descobrir
  simp [Estado.sala, h, strlen]

/-- After the discovery step the current room holds no clue, so a second
discovery step changes nothing. -/
theorem descobrir_descobrir (s : Estado) : descobrir (descobrir s) = descobrir s := by
  apply descobrir_sem_pista
  rw [descobrir_pista]
  simp

theorem descobrir_crescente (s : Estado) (hm : s.mapa.cabe = true)
    (hb : Crescente (exibirPistas s.bst)) : Crescente (exibirPistas (descobrir s).bst) := by
  unfold descobrir
  split
  · exact crescente_inserir (Sala.pista_length_of_cabe s.mapa s.atual hm) s.bst hb
  · exact hb

theorem descobrir_mem (s : Estado) (hm : s.mapa.cabe = true) (x : Texto) :
    x ∈ exibirPistas (descobrir s).bst ↔
      x ∈ exibirPistas s.bst ∨ ((s.mapa.em s.atual).pista = x ∧ x ≠ []) := by
  unfold descobrir
  split
  · rename_i h
    have hne : (s.mapa.em s.atual).pista ≠ [] := (strlen_pos_iff _).mp h
    simp only [Estado.sala]
    rw [mem_exibirPistas_inserir (Sala.pista_length_of_cabe s.mapa s.atual hm)]
    constructor
    · rintro (h1 | h1)
      · exact Or.inl h1
      · exact Or.inr ⟨h1.symm, by rw [h1]; exact hne⟩
    · rintro (h1 | ⟨h1, _⟩)
      · exact Or.inl h1
      · exact Or.inr h1.symm
  · rename_i h
    have h0 : (s.mapa.em s.atual).pista = [] := by
      by_contra hne
      exact h ((strlen_pos_iff _).mpr hne)
    constructor
    · intro h1; exact Or.inl h1
    · rintro (h1 | ⟨h1, h2⟩)
      · exact h1
      · exact absurd (h1.symm.trans h0) h2

theorem laco_terminou (s : Estado) (cs : List Escolha) (h : s.terminou = true) :
    laco s cs = s := by
  cases cs <;> simp [laco, h]

theorem visitadas_terminou (s : Estado) (cs : List Escolha) (h : s.terminou = true) :
    visitadas s cs = [] := by
  cases cs <;> simp [visitadas, h]

/-- Starting the loop after a discovery step in the current room gives the
same run as starting it before. -/
theorem laco_descobrir (s : Estado) (cs : List Escolha) (h : s.terminou = false) :
    laco (descobrir s) cs = laco s cs := by
  cases cs with
  | nil => simp [laco, h, descobrir_terminou, descobrir_descobrir]
  | cons c cs => simp [laco, h, descobrir_terminou, passo, descobrir_descobrir]

/-- The index along a run: ordered, and listing what it listed at the start
together with the clues met in the rooms stood in. -/
theorem laco_bst (cs : List Escolha) (s : Estado) (hm : s.mapa.cabe = true)
    (hb : Crescente (exibirPistas s.bst)) :
    Crescente (exibirPistas (laco s cs).bst) ∧
      ∀ x, x ∈ exibirPistas (laco s cs).bst ↔
        x ∈ exibirPistas s.bst ∨ ∃ p ∈ visitadas s cs, (s.mapa.em p).pista = x ∧ x ≠ [] := by
  induction cs generalizing s with
  | nil =>
    by_cases ht : s.terminou = true
    · simp [laco, visitadas, ht, hb]
    · simp only [laco, visitadas, ht, if_false, Bool.false_eq_true]
      refine ⟨descobrir_crescente s hm hb, fun x => ?_⟩
      rw [descobrir_mem s hm]
      simp
  | cons c cs ih =>
    by_cases ht : s.terminou = true
    · simp [laco, visitadas, ht, hb]
    · simp only [laco, visitadas, ht, if_false, Bool.false_eq_true]
      have hm1 : (passo s c).mapa.cabe = true := by
        simpa [passo] using descobrir_cabe s hm
      have hb1 : Crescente (exibirPistas (passo s c).bst) := by
        simpa [passo] using descobrir_crescente s hm hb
      obtain ⟨hc, hmem⟩ := ih (passo s c) hm1 hb1
      refine ⟨hc, fun x => ?_⟩
      rw [hmem x]
      have e1 : (passo s c).bst = (descobrir s).bst := by simp [passo]
      have e2 : (passo s c).mapa = (descobrir s).mapa := by simp [passo]
      rw [e1, e2, descobrir_mem s hm]
      simp only [descobrir_pista, List.mem_cons]
      constructor
      · rintro ((h1 | ⟨h1, h2⟩) | ⟨p, hp, h1, h2⟩)
        · exact Or.inl h1
        · exact Or.inr ⟨s.atual, Or.inl rfl, h1, h2⟩
        · by_cases hpa : p = s.atual
          · simp only [hpa, if_true] at h1
            exact absurd h1.symm h2
          · simp only [hpa, if_false] at h1
            exact Or.inr ⟨p, Or.inr hp, h1, h2⟩
      · rintro (h1 | ⟨p, hp | hp, h1, h2⟩)
        · exact Or.inl (Or.inl h1)
        · subst hp
          exact Or.inl (Or.inr ⟨h1, h2⟩)
        · by_cases hpa : p = s.atual
          · subst hpa
            exact Or.inl (Or.inr ⟨h1, h2⟩)
          · refine Or.inr ⟨p, hp, ?_, h2⟩
            simpa [hpa] using h1

/-- The map along a run: same shape and names, and each clue empty where the
navigator stood and untouched elsewhere. -/
theorem laco_mapa (cs : List Escolha) (s : Estado) :
    (laco s cs).mapa.forma = s.mapa.forma ∧
      ∀ q, ((laco s cs).mapa.em q).pista =
        if q ∈ visitadas s cs then [] else (s.mapa.em q).pista := by
  induction cs generalizing s with
  | nil =>
    by_cases ht : s.terminou = true
    · simp [laco, visitadas, ht]
    · simp only [laco, visitadas, ht, if_false, Bool.false_eq_true]
      refine ⟨descobrir_forma s, fun q => ?_⟩
      rw [descobrir_pista]
      simp
  | cons c cs ih =>
    by_cases ht : s.terminou = true
    · simp [laco, visitadas, ht]
    · simp only [laco, visitadas, ht, if_false, Bool.false_eq_true]
      obtain ⟨hf, hp⟩ := ih (passo s c)
      have e2 : (passo s c).mapa = (descobrir s).mapa := by simp [passo]
      refine ⟨?_, fun q => ?_⟩
      · rw [hf, e2, descobrir_forma]
      · rw [hp q, e2, descobrir_pista]
        by_cases h1 : q ∈ visitadas (passo s c) cs
        · simp [h1]
        · by_cases h2 : q = s.atual
          · simp [h2]
          · simp [h1, h2]

theorem passo_invalida (s : Estado) : passo s .invalida = descobrir s := rfl

/-- Invalid choices can be dropped from the input of the loop. -/
theorem laco_filter_invalida (cs : List Escolha) (s : Estado) :
    laco s (cs.filter (fun c => decide (c ≠ .invalida))) = laco s cs := by
  induction cs generalizing s with
  | nil => rfl
  | cons c cs ih =>
    by_cases ht : s.terminou = true
    · rw [laco_terminou s _ ht, laco_terminou s _ ht]
    · have hf : s.terminou = false := by simpa using ht
      cases c with
      | invalida =>
        have hd : List.filter (fun c => decide (c ≠ Escolha.invalida)) (Escolha.invalida :: cs)
            = List.filter (fun c => decide (c ≠ Escolha.invalida)) cs := by
          simp
        rw [hd, ih s]
        simp only [laco, hf, if_false, Bool.false_eq_true, passo_invalida]
        exact (laco_descobrir s cs hf).symm
      | esquerda =>
        simp only [List.filter, ne_eq, reduceCtorEq, not_false_eq_true, decide_True, laco, hf,
          if_false, Bool.false_eq_true]
        exact ih _
      | direita =>
        simp only [List.filter, ne_eq, reduceCtorEq, not_false_eq_true, decide_True, laco, hf,
          if_false, Bool.false_eq_true]
        exact ih _
      | sair =>
        simp only [List.filter, ne_eq, reduceCtorEq, not_false_eq_true, decide_True, laco, hf,
          if_false, Bool.false_eq_true]
        exact ih _

/-- A clue that is empty stays empty along the loop. -/
theorem laco_pista_vazia (cs : List Escolha) (s : Estado) (q : Caminho)
    (h : (s.mapa.em q).pista = []) : ((laco s cs).mapa.em q).pista = [] := by
  rw [(laco_mapa cs s).2 q]
  split
  · rfl
  · exact h

/-- On a map without clues the loop leaves the index alone. -/
theorem laco_semPistas (cs : List Escolha) (s : Estado) (h : s.mapa.semPistas = true) :
    (laco s cs).bst = s.bst := by
  induction cs generalizing s with
  | nil =>
    have hd := descobrir_sem_pista s (Sala.pista_of_semPistas s.mapa s.atual h)
    by_cases ht : s.terminou = true <;> simp [laco, ht, hd]
  | cons c cs ih =>
    have hd := descobrir_sem_pista s (Sala.pista_of_semPistas s.mapa s.atual h)
    by_cases ht : s.terminou = true
    · simp [laco, ht]
    · simp only [laco, ht, if_false, Bool.false_eq_true, passo, hd]
      rw [ih (mover s c) (by simpa using h)]
      simp

theorem mover_sala_presente (s : Estado) (c : Escolha) (h : s.sala.presente = true) :
    (mover s c).sala.presente = true := by
  cases c with
  | sair => exact h
  | invalida => exact h
  | esquerda =>
    simp only [mover]
    split
    · rename_i hc
      simpa [Estado.sala, Sala.em_snoc] using hc
    · exact h
  | direita =>
    simp only [mover]
    split
    · rename_i hc
      simpa [Estado.sala, Sala.em_snoc] using hc
    · exact h

theorem descobrir_sala_presente (s : Estado) :
    (descobrir s).sala.presente = s.sala.presente := by
  simp [Estado.sala, descobrir_presente]

theorem descobrir_filho_presente (s : Estado) (d : Direcao) :
    ((descobrir s).sala.filho d).presente = (s.sala.filho d).presente := by
  simp only [Estado.sala, ← Sala.em_snoc, descobrir_atual]
  exact descobrir_presente s (s.atual ++ [d])

theorem passo_sala_presente (s : Estado) (c : Escolha) (h : s.sala.presente = true) :
    (passo s c).sala.presente = true :=
  mover_sala_presente _ c (by rw [descobrir_sala_presente]; exact h)

/-- The current room stays a room of the map along the loop. -/
theorem laco_sala_presente (cs : List Escolha) (s : Estado) (h : s.sala.presente = true) :
    (laco s cs).sala.presente = true := by
  induction cs generalizing s with
  | nil =>
    by_cases ht : s.terminou = true
    · simp [laco, ht, h]
    · simp [laco, ht, descobrir_sala_presente, h]
  | cons c cs ih =>
    by_cases ht : s.terminou = true
    · simp [laco, ht, h]
    · simp only [laco, ht, if_false, Bool.false_eq_true]
      exact ih _ (passo_sala_presente s c h)

/-- Rooms are neither added nor removed along the loop. -/
theorem laco_presente (cs : List Escolha) (s : Estado) (q : Caminho) :
    ((laco s cs).mapa.em q).presente = (s.mapa.em q).presente := by
  induction cs generalizing s with
  | nil =>
    by_cases ht : s.terminou = true
    · simp [laco, ht]
    · simp [laco, ht, descobrir_presente]
  | cons c cs ih =>
    by_cases ht : s.terminou = true
    · simp [laco, ht]
    · simp only [laco, ht, if_false, Bool.false_eq_true]
      rw [ih (passo s c)]
      simp [passo, descobrir_presente]

/-- Room names are not written along the loop. -/
theorem laco_nome (cs : List Escolha) (s : Estado) (q : Caminho) :
    ((laco s cs).mapa.em q).nome = (s.mapa.em q).nome := by
  induction cs generalizing s with
  | nil =>
    by_cases ht : s.terminou = true
    · simp [laco, ht]
    · simp [laco, ht, descobrir_nome]
  | cons c cs ih =>
    by_cases ht : s.terminou = true
    · simp [laco, ht]
    · simp only [laco, ht, if_false, Bool.false_eq_true]
      rw [ih (passo s c)]
      simp [passo, descobrir_nome]

/-- A room as `criarSala` makes it fits its two fields, whatever the
arguments. -/
theorem criarSala_cabe (nome pista : Texto) : (criarSala nome pista).cabe = true := by
  simp [criarSala, Sala.cabe, strncpy, List.length_take]

theorem passo_nao_terminou (s : Estado) (c : Escolha) (hs : s.terminou = false)
    (hc : c ≠ .sair) : (passo s c).terminou = false := by
  have hsp : s.sala.presente = true := by
    simp only [Estado.terminou, Bool.or_eq_false_iff, Bool.not_eq_false'] at hs
    exact hs.2
  have hsaiu : s.saiu = false := by
    simp only [Estado.terminou, Bool.or_eq_false_iff] at hs
    exact hs.1
  have h := passo_sala_presente s c hsp
  have h2 : (passo s c).saiu = false := by
    cases c with
    | sair => exact absurd rfl hc
    | invalida => simp [passo, mover, hsaiu]
    | esquerda => simp only [passo, mover]; split <;> simp [hsaiu]
    | direita => simp only [passo, mover]; split <;> simp [hsaiu]
  simp [Estado.terminou, h, h2]

/-- The rooms listed by `visitadas` are the current rooms of the states the
run goes through: those reached on the prefixes of the input. -/
theorem mem_visitadas_iff (cs : List Escolha) (s : Estado) (hs : s.terminou = false)
    (p : Caminho) :
    p ∈ visitadas s cs ↔ ∃ k, k ≤ cs.length ∧ (laco s (cs.take k)).atual = p := by
  induction cs generalizing s with
  | nil =>
    simp [visitadas, laco, hs, eq_comm]
  | cons c cs ih =>
    simp only [visitadas, hs, if_false, Bool.false_eq_true, List.mem_cons, List.length_cons]
    constructor
    · rintro (h | h)
      · exact ⟨0, by omega, by simp [laco, hs, h]⟩
      · by_cases ht : (passo s c).terminou = true
        · rw [visitadas_terminou _ _ ht] at h
          simp at h
        · have hf : (passo s c).terminou = false := by simpa using ht
          obtain ⟨k, hk, hl⟩ := (ih (passo s c) hf).mp h
          exact ⟨k + 1, by omega, by simpa [laco, hs] using hl⟩
    · rintro ⟨k, hk, hl⟩
      cases k with
      | zero =>
        left
        simpa [laco, hs, eq_comm] using hl
      | succ k =>
        simp only [List.take_succ_cons, laco, hs, if_false, Bool.false_eq_true] at hl
        by_cases hc : c = .sair
        · left
          subst hc
          have ht : (passo s .sair).terminou = true := by simp [passo, mover, Estado.terminou]
          rw [laco_terminou _ _ ht] at hl
          simpa [passo, mover, eq_comm] using hl
        · right
          exact (ih (passo s c) (passo_nao_terminou s c hs hc)).mpr ⟨k, by omega, hl⟩

/-- The loop ends, through `break`, on any input that holds the choice
`sair`, provided it starts in a room; with a null root it is over at once. -/
theorem laco_saiu (cs : List Escolha) (s : Estado) (hp : s.sala.presente = true)
    (hc : Escolha.sair ∈ cs) : (laco s cs).saiu = true := by
  induction cs generalizing s with
  | nil => simp at hc
  | cons c cs ih =>
    by_cases ht : s.terminou = true
    · rw [laco_terminou s _ ht]
      simpa [Estado.terminou, hp] using ht
    · have hf : s.terminou = false := by simpa using ht
      simp only [laco, hf, if_false, Bool.false_eq_true]
      by_cases hcs : c = .sair
      · subst hcs
        have ht2 : (passo s .sair).terminou = true := by simp [passo, mover, Estado.terminou]
        rw [laco_terminou _ _ ht2]
        simp [passo, mover]
      · have hc2 : Escolha.sair ∈ cs := by
          rcases List.mem_cons.mp hc with h | h
          · exact absurd h.symm hcs
          · exact h
        exact ih _ (passo_sala_presente s c hp) hc2

end Detective

namespace Quest

open Detective (Direcao Caminho Escolha)

/-! ## The steps of the plain navigator -/

theorem Sala.em_snoc_quest (m : Sala) (p : Caminho) (d : Direcao) :
    m.em (p ++ [d]) = (m.em p).filho d := by
  simp [Sala.em, List.foldl_append]

@[simp]
theorem verificar_atual (mapa : Sala) (s : Estado) :
    (verificar mapa s).atual = s.atual := by
  unfold verificar; split <;> rfl

theorem mover_presente (mapa : Sala) (s : Estado) (c : Escolha)
    (h : (mapa.em s.atual).presente = true) : (mapa.em (mover mapa s c).atual).presente = true := by
  cases c with
  | sair => exact h
  | invalida => exact h
  | esquerda =>
    simp only [mover]
    split
    · rename_i hc
      simpa [Sala.em_snoc_quest] using hc
    · exact h
  | direita =>
    simp only [mover]
    split
    · rename_i hc
      simpa [Sala.em_snoc_quest] using hc
    · exact h

/-- The current room stays a room of the map along the loop. -/
theorem laco_sala_atual_presente (mapa : Sala) (cs : List Escolha) (s : Estado)
    (h : (mapa.em s.atual).presente = true) :
    (mapa.em (laco mapa s cs).1.atual).presente = true := by
  induction cs generalizing s with
  | nil =>
    simp only [laco]
    split
    · exact h
    · simpa using h
  | cons c cs ih =>
    simp only [laco]
    split
    · exact h
    · split
      · simpa using h
      · exact ih _ (mover_presente mapa s c h)

end Quest

namespace Detective

open Escolha

/-! ## Claims on the clue-collecting navigator -/

/-- C4: for every map whose clues fit their `char[100]` field, every starting
index `t` with a strictly ascending listing and every finite sequence of
choices, the in-order listing of the index that `explorarSalasComPistas` hands
back is strictly ascending, has no repeated line, and lists exactly the texts
of `t` together with the non-empty clues that the rooms the navigator stood in
(the root included) held in the map given to the call. -/
theorem explorarSalasComPistas_indice (hall : Sala) (t : PistaNode) (cs : List Escolha)
    (hm : hall.cabe = true) (ht : Crescente (exibirPistas t)) :
    Crescente (exibirPistas (explorarSalasComPistas hall t cs).bst) ∧
      (exibirPistas (explorarSalasComPistas hall t cs).bst).Nodup ∧
      ∀ x, x ∈ exibirPistas (explorarSalasComPistas hall t cs).bst ↔
        x ∈ exibirPistas t ∨
          ∃ p ∈ visitadas (inicio hall t) cs, (hall.em p).pista = x ∧ x ≠ [] := by
  obtain ⟨hc, hmem⟩ := laco_bst cs (inicio hall t) hm ht
  exact ⟨hc, crescente_nodup hc, hmem⟩

/-- C4 on the map of `main`, starting from the index that lists the one text
`B`, with the choices right, invalid, left, left, stop: the navigator stood
in the hall, the kitchen (twice), the dining room and the pantry, and the index
lists `B` and the three clues found there. -/
theorem explorarSalasComPistas_indice_witness :
    mansao.cabe = true ∧ Crescente (exibirPistas (.node [66] .nil .nil)) ∧
      visitadas (inicio mansao (.node [66] .nil .nil))
          [direita, invalida, esquerda, esquerda, sair]
        = [[], [.direita], [.direita], [.direita, .esquerda],
            [.direita, .esquerda, .esquerda]] ∧
      exibirPistas (explorarSalasComPistas mansao (.node [66] .nil .nil)
          [direita, invalida, esquerda, esquerda, sair]).bst
        = [pistaHall, [66], pistaSalaDeJantar, pistaDespensa] ∧
      Crescente (exibirPistas (explorarSalasComPistas mansao (.node [66] .nil .nil)
          [direita, invalida, esquerda, esquerda, sair]).bst) :=
  ⟨by decide, by decide, by decide, by decide,
    (explorarSalasComPistas_indice mansao (.node [66] .nil .nil)
      [direita, invalida, esquerda, esquerda, sair] (by decide) (by decide)).1⟩

/-- C5 fails as stated: in the map that `main` builds the room at
root.left.left (Jardim de Inverno) is a leaf but holds a clue, so the run on
left, left, stop does not end with the two clues of the hall and of
root.left only. -/
theorem mansao_jardim_tem_pista :
    (mansao.em [.esquerda, .esquerda]).pista = pistaJardim ∧
      (mansao.em [.esquerda, .esquerda]).pista ≠ [] ∧
      exibirPistas (explorarSalasComPistas mansao .nil [esquerda, esquerda, sair]).bst
        ≠ [pistaHall, pistaSalaDeEstar] ∧
      (exibirPistas (explorarSalasComPistas mansao .nil [esquerda, esquerda, sair]).bst).length
        = 3 := by
  decide

/-- C5, as the code has it: on the 11-room map that `main` builds, the run from
the root with an empty index on left, left, stop stands in the root, in
root.left and in root.left.left; the index lists the root's clue once the root
is entered, that and the clue of root.left once root.left is entered, and also
the clue of root.left.left, a leaf, once that is entered; the run then stops
there, having blanked those three clues, and the final listing is the three
clues in ascending order (hall, garden, living room). -/
theorem mansao_esquerda_esquerda_sair :
    mansao.contar = 11 ∧
      visitadas (inicio mansao .nil) [esquerda, esquerda, sair]
        = [[], [.esquerda], [.esquerda, .esquerda]] ∧
      mansao.pista = pistaHall ∧
      (mansao.em [.esquerda]).pista = pistaSalaDeEstar ∧
      (mansao.em [.esquerda, .esquerda]).pista = pistaJardim ∧
      (mansao.em [.esquerda, .esquerda]).filho .esquerda = .nil ∧
      (mansao.em [.esquerda, .esquerda]).filho .direita = .nil ∧
      exibirPistas (explorarSalasComPistas mansao .nil []).bst = [pistaHall] ∧
      exibirPistas (explorarSalasComPistas mansao .nil [esquerda]).bst
        = [pistaHall, pistaSalaDeEstar] ∧
      exibirPistas (explorarSalasComPistas mansao .nil [esquerda, esquerda]).bst
        = [pistaHall, pistaJardim, pistaSalaDeEstar] ∧
      (explorarSalasComPistas mansao .nil [esquerda, esquerda, sair]).saiu = true ∧
      (explorarSalasComPistas mansao .nil [esquerda, esquerda, sair]).atual
        = [.esquerda, .esquerda] ∧
      exibirPistas (explorarSalasComPistas mansao .nil [esquerda, esquerda, sair]).bst
        = [pistaHall, pistaJardim, pistaSalaDeEstar] ∧
      Crescente [pistaHall, pistaJardim, pistaSalaDeEstar] ∧
      main [esquerda, esquerda, sair] = .lista [pistaHall, pistaJardim, pistaSalaDeEstar] := by
  decide

/-- C6: once the discovery step has run in the current room `r` of any state,
the clue of `r` is empty, it is empty in the state reached by any further
choices, and whenever the navigator is in `r` in such a later state (as after
an invalid choice) the discovery step finds an empty clue there and gives back
the very same state: map and index unchanged. -/
theorem descoberta_esvazia_a_sala (s : Estado) (cs : List Escolha) :
    ((descobrir s).mapa.em s.atual).pista = [] ∧
      ((laco (descobrir s) cs).mapa.em s.atual).pista = [] ∧
      ((laco (descobrir s) cs).atual = s.atual →
        strlen (laco (descobrir s) cs).sala.pista = 0 ∧
          descobrir (laco (descobrir s) cs) = laco (descobrir s) cs) ∧
      passo (descobrir s) invalida = descobrir s := by
  have h1 : ((descobrir s).mapa.em s.atual).pista = [] := by
    rw [descobrir_pista]; simp
  have h2 := laco_pista_vazia cs (descobrir s) s.atual h1
  refine ⟨h1, h2, ?_, ?_⟩
  · intro ha
    have h3 : ((laco (descobrir s) cs).mapa.em (laco (descobrir s) cs).atual).pista = [] := by
      rw [ha]; exact h2
    exact ⟨by simp [Estado.sala, h3, strlen], descobrir_sem_pista _ h3⟩
  · rw [passo_invalida, descobrir_descobrir]

/-- C6 on the map of `main`: after discovery in the hall and the choices
invalid, right (no move is refused here, the kitchen is entered), the hall's
clue is still empty; after two invalid choices the navigator is still in the
hall and discovery there changes nothing. -/
theorem descoberta_esvazia_a_sala_witness :
    (laco (descobrir (inicio mansao .nil)) [invalida, invalida]).atual
        = (inicio mansao .nil).atual ∧
      (inicio mansao .nil).sala.pista = pistaHall ∧
      ((laco (descobrir (inicio mansao .nil)) [invalida, direita]).mapa.em []).pista = [] ∧
      descobrir (laco (descobrir (inicio mansao .nil)) [invalida, invalida])
        = laco (descobrir (inicio mansao .nil)) [invalida, invalida] :=
  ⟨by decide, by decide,
    (descoberta_esvazia_a_sala (inicio mansao .nil) [invalida, direita]).2.1,
    ((descoberta_esvazia_a_sala (inicio mansao .nil) [invalida, invalida]).2.2.1
      (by decide)).2⟩

/-- C7: for every map, index and finite choice sequence, the run on the
sequence with the invalid choices removed ends in the same state (same current
room, same clue fields in the map, same index, same exit flag) as the run on
the sequence itself; in particular invalid, invalid, left, stop gives what
left, stop gives. -/
theorem explorarSalasComPistas_sem_invalidas (hall : Sala) (bst : PistaNode)
    (cs : List Escolha) :
    explorarSalasComPistas hall bst (cs.filter (fun c => decide (c ≠ invalida)))
        = explorarSalasComPistas hall bst cs ∧
      explorarSalasComPistas hall bst [invalida, invalida, esquerda, sair]
        = explorarSalasComPistas hall bst [esquerda, sair] := by
  refine ⟨laco_filter_invalida cs (inicio hall bst), ?_⟩
  exact (laco_filter_invalida [invalida, invalida, esquerda, sair] (inicio hall bst)).symm

/-- C8: in both navigators, started at a present root, the current room is a
present room of the map after every choice sequence. In one iteration of
either loop that reads a choice, left or right moves to that child when the
child is present and otherwise leaves the current room where it was, and in
neither case is the loop over after the iteration of `explorarSalasComPistas`;
in `explorarSalas` a choice toward an absent child leaves the whole state as it
was, still exploring. -/
theorem navegadores_sala_atual_presente (hall : Sala) (bst : PistaNode) (mapa : Quest.Sala)
    (cs : List Escolha) (s : Estado) (q : Quest.Estado)
    (hh : hall.presente = true) (hm : mapa.presente = true)
    (hs : s.terminou = false)
    (hq : Quest.terminou mapa (Quest.verificar mapa q) = false) :
    ((explorarSalasComPistas hall bst cs).sala.presente = true ∧
      (hall.em (explorarSalasComPistas hall bst cs).atual).presente = true ∧
      (passo s esquerda).atual
        = (if (s.sala.filho .esquerda).presente then s.atual ++ [.esquerda] else s.atual) ∧
      (passo s direita).atual
        = (if (s.sala.filho .direita).presente then s.atual ++ [.direita] else s.atual) ∧
      (passo s esquerda).terminou = false ∧ (passo s direita).terminou = false) ∧
    ((mapa.em (Quest.explorarSalas mapa cs).1.atual).presente = true ∧
      Quest.laco mapa q (esquerda :: cs) = Quest.laco mapa (Quest.mover mapa q esquerda) cs ∧
      Quest.laco mapa q (direita :: cs) = Quest.laco mapa (Quest.mover mapa q direita) cs ∧
      Quest.mover mapa q esquerda
        = (if ((mapa.em q.atual).filho .esquerda).presente
            then { q with atual := q.atual ++ [.esquerda] } else q) ∧
      Quest.mover mapa q direita
        = (if ((mapa.em q.atual).filho .direita).presente
            then { q with atual := q.atual ++ [.direita] } else q) ∧
      q.situacao = .explorando) := by
  have hp : (explorarSalasComPistas hall bst cs).sala.presente = true :=
    laco_sala_presente cs (inicio hall bst) hh
  have hsp : s.sala.presente = true := by
    simp only [Estado.terminou, Bool.or_eq_false_iff, Bool.not_eq_false'] at hs
    exact hs.2
  have hsaiu : s.saiu = false := by
    simp only [Estado.terminou, Bool.or_eq_false_iff] at hs
    exact hs.1
  have hqt : Quest.terminou mapa q = false := by
    unfold Quest.verificar at hq
    split at hq
    · simp [Quest.terminou] at hq
    · exact hq
  refine ⟨⟨hp, ?_, ?_, ?_, ?_, ?_⟩, ⟨?_, ?_, ?_, rfl, rfl, ?_⟩⟩
  · have h := laco_presente cs (inicio hall bst) (explorarSalasComPistas hall bst cs).atual
    simp only [explorarSalasComPistas, Estado.sala] at hp h ⊢
    exact h.symm.trans hp
  · simp only [passo, mover, descobrir_filho_presente]
    split <;> simp
  · simp only [passo, mover, descobrir_filho_presente]
    split <;> simp
  · have h := passo_sala_presente s esquerda hsp
    have h2 : (passo s esquerda).saiu = false := by
      simp only [passo, mover]
      split <;> simp [hsaiu]
    simp [Estado.terminou, h, h2]
  · have h := passo_sala_presente s direita hsp
    have h2 : (passo s direita).saiu = false := by
      simp only [passo, mover]
      split <;> simp [hsaiu]
    simp [Estado.terminou, h, h2]
  · exact Quest.laco_sala_atual_presente mapa cs _ hm
  · simp [Quest.laco, hqt, hq]
  · simp [Quest.laco, hqt, hq]
  · simp only [Quest.terminou, Bool.or_eq_false_iff, decide_eq_false_iff_not, not_not] at hqt
    exact hqt.1

/-- C8 on two small maps whose root has a left child only, with the choices
right, left: the right choice is refused and the left one taken. -/
theorem navegadores_sala_atual_presente_witness :
    (Sala.node [72] [65] (.node [83] [] .nil .nil) .nil).presente = true ∧
      (Quest.Sala.node [72] (.node [83] .nil .nil) .nil).presente = true ∧
      (inicio (.node [72] [65] (.node [83] [] .nil .nil) .nil) .nil).terminou = false ∧
      (explorarSalasComPistas (.node [72] [65] (.node [83] [] .nil .nil) .nil) .nil
        [direita, esquerda]).atual = [.esquerda] ∧
      (passo (inicio (.node [72] [65] (.node [83] [] .nil .nil) .nil) .nil) direita).atual = [] ∧
      (passo (inicio (.node [72] [65] (.node [83] [] .nil .nil) .nil) .nil) direita).terminou
        = false ∧
      Quest.mover (.node [72] (.node [83] .nil .nil) .nil)
        { atual := [], situacao := .explorando } direita
        = { atual := [], situacao := .explorando } ∧
      (Quest.explorarSalas (.node [72] (.node [83] .nil .nil) .nil) [direita, esquerda]).1.atual
        = [.esquerda] :=
  ⟨by decide, by decide, by decide, by decide, by decide,
    (navegadores_sala_atual_presente (.node [72] [65] (.node [83] [] .nil .nil) .nil) .nil
      (.node [72] (.node [83] .nil .nil) .nil) [direita, esquerda]
      (inicio (.node [72] [65] (.node [83] [] .nil .nil) .nil) .nil)
      { atual := [], situacao := .explorando }
      (by decide) (by decide) (by decide) (by decide)).1.2.2.2.2.2,
    by decide, by decide⟩

/-- C9: on every map in which every room's clue is empty, and for every finite
choice sequence, `explorarSalasComPistas` started with the empty index returns
the empty index (a null root, an empty in-order listing), on which `main`
reports that no clue was collected. For any index, `main` takes the
none-collected branch exactly when the index is the null root, and otherwise
lists it, the list then being non-empty. -/
theorem explorarSalasComPistas_sem_pistas (hall : Sala) (cs : List Escolha) (b : PistaNode)
    (h : hall.semPistas = true) :
    (explorarSalasComPistas hall .nil cs).bst = .nil ∧
      exibirPistas (explorarSalasComPistas hall .nil cs).bst = [] ∧
      relatorioFinal (explorarSalasComPistas hall .nil cs).bst = .nenhumaPista ∧
      (relatorioFinal b = .nenhumaPista ↔ b = .nil) ∧
      (b ≠ .nil → relatorioFinal b = .lista (exibirPistas b) ∧ exibirPistas b ≠ []) := by
  have h1 : (explorarSalasComPistas hall .nil cs).bst = .nil :=
    laco_semPistas cs (inicio hall .nil) h
  refine ⟨h1, by rw [h1]; rfl, by rw [h1]; rfl, ?_, ?_⟩
  · cases b <;> simp [relatorioFinal]
  · intro hb
    cases b with
    | nil => exact absurd rfl hb
    | node p e d => exact ⟨rfl, by simp [exibirPistas]⟩

/-- C9 on a three-room map without clues, with the choices left, invalid,
right, stop, and for the index holding the one text `a`. -/
theorem explorarSalasComPistas_sem_pistas_witness :
    (Sala.node [72] [] (.node [83] [] .nil .nil) (.node [67] [] .nil .nil)).semPistas = true ∧
      (explorarSalasComPistas
        (.node [72] [] (.node [83] [] .nil .nil) (.node [67] [] .nil .nil)) .nil
        [esquerda, invalida, direita, sair]).bst = .nil ∧
      relatorioFinal (.node [97] .nil .nil) = .lista [[97]] :=
  ⟨by decide,
    (explorarSalasComPistas_sem_pistas
      (.node [72] [] (.node [83] [] .nil .nil) (.node [67] [] .nil .nil))
      [esquerda, invalida, direita, sair] (.node [97] .nil .nil) (by decide)).1,
    by decide⟩

/-- C10: for every map and finite choice sequence, the map that
`explorarSalasComPistas` leaves has the shape and the room names of the map it
was given (the two are equal once all clues are blanked, and a path leads to a
room in one exactly when it does in the other, to a room of the same name);
the clue of each room the navigator stood in is empty and the clue of every
other room is what it was. -/
theorem explorarSalasComPistas_mapa (hall : Sala) (bst : PistaNode) (cs : List Escolha)
    (q : Caminho) :
    (explorarSalasComPistas hall bst cs).mapa.forma = hall.forma ∧
      ((explorarSalasComPistas hall bst cs).mapa.em q).presente = (hall.em q).presente ∧
      ((explorarSalasComPistas hall bst cs).mapa.em q).nome = (hall.em q).nome ∧
      ((explorarSalasComPistas hall bst cs).mapa.em q).pista
        = (if q ∈ visitadas (inicio hall bst) cs then [] else (hall.em q).pista) := by
  obtain ⟨hf, hp⟩ := laco_mapa cs (inicio hall bst)
  exact ⟨hf, laco_presente cs (inicio hall bst) q, laco_nome cs (inicio hall bst) q, hp q⟩

end Detective

namespace Detective

open Escolha

/-! ## The ordering invariant, the stop step and the two bounded fields -/

/-- The node-by-node ordering invariant says the same as: the in-order
listing is strictly ascending. -/
theorem ordenada_iff_crescente (t : PistaNode) : t.ordenada ↔ Crescente (exibirPistas t) := by
  induction t with
  | nil => simp [PistaNode.ordenada, exibirPistas, Crescente]
  | node p e d ihe ihd =>
    unfold Crescente at ihe ihd ⊢
    simp only [PistaNode.ordenada, exibirPistas, List.pairwise_append, List.pairwise_cons,
      List.mem_cons, ihe, ihd]
    constructor
    · rintro ⟨h1, h2, h3, h4⟩
      refine ⟨h3, ⟨h2, h4⟩, ?_⟩
      intro a ha b hb
      rcases hb with hb | hb
      · subst hb; exact h1 a ha
      · exact strcmp_trans (h1 a ha) (h2 b hb)
    · rintro ⟨h3, ⟨h2, h4⟩, h5⟩
      exact ⟨fun y hy => h5 y hy p (Or.inl rfl), h2, h3, h4⟩

theorem construida_cabe {m : Sala} (h : m.Construida) : m.cabe = true := by
  induction h with
  | nil => rfl
  | sala nome pista e d _ _ ihe ihd =>
    simp [criarSala, Sala.ligar, Sala.cabe, strncpy, List.length_take, ihe, ihd]

theorem criarPistaNode_curto {x : Texto} (hx : x.length ≤ 99) :
    criarPistaNode x = .node x .nil .nil := by
  simp [criarPistaNode, strncpy_curto hx]

theorem laco_sair (s : Estado) (cs : List Escolha) (hs : s.terminou = false) :
    laco s (sair :: cs) = { descobrir s with saiu := true } := by
  have ht : (passo s sair).terminou = true := by simp [passo, mover, Estado.terminou]
  simp only [laco, hs, if_false, Bool.false_eq_true]
  rw [laco_terminou _ _ ht]
  rfl

end Detective

namespace Detective

open Escolha

/-! ## Claims on the stop step, on repeated texts and on the bounded fields -/

/-- C11: in `explorarSalasComPistas`, an iteration begun in any room `r` with
the loop running and fed the choice stop ends the run at `r`, whatever
children `r` has and whatever input follows, with the discovery step of `r`
done: if `r` held a non-empty clue `c`, the index returned is the index before
the step with `c` inserted and the clue of `r` is empty in the map; if `r`
held none, index and map are as before. -/
theorem sair_termina_depois_da_descoberta (s : Estado) (cs : List Escolha)
    (hs : s.terminou = false) :
    laco s (sair :: cs) = { descobrir s with saiu := true } ∧
      (laco s (sair :: cs)).saiu = true ∧
      (laco s (sair :: cs)).atual = s.atual ∧
      (s.sala.pista ≠ [] →
        (laco s (sair :: cs)).bst = inserirPista s.bst s.sala.pista ∧
          (laco s (sair :: cs)).mapa = s.mapa.limparPista s.atual ∧
          ((laco s (sair :: cs)).mapa.em s.atual).pista = []) ∧
      (s.sala.pista = [] →
        (laco s (sair :: cs)).bst = s.bst ∧ (laco s (sair :: cs)).mapa = s.mapa) := by
  have h := laco_sair s cs hs
  refine ⟨h, by rw [h], by rw [h]; simp, ?_, ?_⟩
  · intro hc
    have hpos : strlen s.sala.pista > 0 := (strlen_pos_iff _).mpr hc
    have hd : descobrir s
        = { s with bst := inserirPista s.bst s.sala.pista,
                   mapa := s.mapa.limparPista s.atual } := by
      unfold descobrir
      rw [if_pos hpos]
    rw [h, hd]
    refine ⟨rfl, rfl, ?_⟩
    simp [Sala.pista_em_limparPista]
  · intro hc
    have hd : descobrir s = s := descobrir_sem_pista s hc
    rw [h, hd]
    exact ⟨rfl, rfl⟩

/-- C11 on the map of `main`: stop as the first choice, in the hall, which
has two children and holds a clue. -/
theorem sair_termina_depois_da_descoberta_witness :
    (inicio mansao .nil).terminou = false ∧
      (inicio mansao .nil).sala.pista ≠ [] ∧
      (laco (inicio mansao .nil) [sair, esquerda]).atual = [] ∧
      (laco (inicio mansao .nil) [sair, esquerda]).bst = inserirPista .nil pistaHall ∧
      ((laco (inicio mansao .nil) [sair, esquerda]).mapa.em []).pista = [] :=
  ⟨by decide, by decide, by decide,
    ((sair_termina_depois_da_descoberta (inicio mansao .nil) [esquerda] (by decide)).2.2.2.1
      (by decide)).1,
    by decide⟩

/-- C14: for every index `t` that satisfies the ordering invariant (every
text of a left subtree below the node's text, every text of a right subtree
above it) and every text `x` stored in some node of `t`, `inserirPista t x` is
`t` itself: the same nodes with the same texts in the same places, hence as
many nodes as before. -/
theorem inserirPista_texto_repetido (t : PistaNode) (x : Texto) (ht : t.ordenada)
    (hx : x ∈ exibirPistas t) :
    inserirPista t x = t ∧ (inserirPista t x).contar = t.contar := by
  have h := inserirPista_presente t ((ordenada_iff_crescente t).mp ht) hx
  exact ⟨h, by rw [h]⟩

/-- C14 at the index with `b` at the root, `a` on its left and `c` on its
right, for the text `c`. -/
theorem inserirPista_texto_repetido_witness :
    (PistaNode.node [98] (.node [97] .nil .nil) (.node [99] .nil .nil)).ordenada ∧
      [99] ∈ exibirPistas (.node [98] (.node [97] .nil .nil) (.node [99] .nil .nil)) ∧
      inserirPista (.node [98] (.node [97] .nil .nil) (.node [99] .nil .nil)) [99]
        = .node [98] (.node [97] .nil .nil) (.node [99] .nil .nil) :=
  ⟨(ordenada_iff_crescente _).mpr (by decide), by decide,
    (inserirPista_texto_repetido (.node [98] (.node [97] .nil .nil) (.node [99] .nil .nil)) [99]
      ((ordenada_iff_crescente _).mpr (by decide)) (by decide)).1⟩

/-- C16: `criarSala` stores as the room's clue the first 99 bytes of the text
it is given, the whole text when that has at most 99 bytes, and
`criarPistaNode` stores a text of at most 99 bytes unchanged. Hence, on a map
whose rooms were made by `criarSala`, the node that `criarPistaNode` makes for
the clue of any room holds that clue byte for byte, and the index handed back
by `explorarSalasComPistas` lists, besides the texts of the ordered index `t`
it started from, exactly the non-empty clues of the rooms the navigator stood
in, each as it stood in its room: none altered, no two merged. -/
theorem pistas_guardadas_por_inteiro (nome pista x : Texto) (hall : Sala) (t : PistaNode)
    (cs : List Escolha) (q : Caminho) (hx : x.length ≤ 99) (hh : hall.Construida)
    (ht : Crescente (exibirPistas t)) :
    (criarSala nome pista).pista = pista.take 99 ∧
      (pista.length ≤ 99 → (criarSala nome pista).pista = pista) ∧
      criarPistaNode x = .node x .nil .nil ∧
      criarPistaNode (hall.em q).pista = .node (hall.em q).pista .nil .nil ∧
      exibirPistas (inserirPista .nil (hall.em q).pista) = [(hall.em q).pista] ∧
      (∀ y, y ∈ exibirPistas (explorarSalasComPistas hall t cs).bst ↔
        y ∈ exibirPistas t ∨
          ∃ p ∈ visitadas (inicio hall t) cs, (hall.em p).pista = y ∧ y ≠ []) := by
  have hc : hall.cabe = true := construida_cabe hh
  have hq : (hall.em q).pista.length ≤ 99 := Sala.pista_length_of_cabe hall q hc
  refine ⟨rfl, ?_, criarPistaNode_curto hx, criarPistaNode_curto hq, ?_,
    (laco_bst cs (inicio hall t) hc ht).2⟩
  · intro hp
    simp [criarSala, Sala.pista, strncpy_curto hp]
  · rw [inserirPista, exibirPistas_criar hq]

/-- The map of `main` is made of rooms from `criarSala`. -/
theorem mansao_construida : mansao.Construida :=
  .sala _ _ _ _
    (.sala _ _ _ _ (.sala _ _ _ _ .nil .nil)
      (.sala _ _ _ _ (.sala _ _ _ _ (.sala _ _ _ _ .nil .nil) .nil) (.sala _ _ _ _ .nil .nil)))
    (.sala _ _ _ _ (.sala _ _ _ _ (.sala _ _ _ _ .nil .nil) (.sala _ _ _ _ .nil .nil)) .nil)

/-- C16 on the map of `main` with the choices left, right, stop from the
empty index, and for a text of 120 bytes given to `criarSala`. -/
theorem pistas_guardadas_por_inteiro_witness :
    List.length [97] ≤ 99 ∧ mansao.Construida ∧ Crescente (exibirPistas .nil) ∧
      (criarSala [72] (List.replicate 120 97)).pista = List.replicate 99 97 ∧
      exibirPistas (explorarSalasComPistas mansao .nil [esquerda, direita, sair]).bst
        = [pistaHall, pistaSalaDeEstar] ∧
      criarPistaNode (mansao.em [.esquerda]).pista = .node pistaSalaDeEstar .nil .nil :=
  ⟨by decide, mansao_construida, by decide, by decide, by decide,
    (pistas_guardadas_por_inteiro [72] (List.replicate 120 97) [97] mansao .nil
      [esquerda, direita, sair] [.esquerda] (by decide) mansao_construida (by decide)).2.2.2.1⟩

end Detective

namespace Detective

/-! ## Chains: what sorted input does to the index -/

/-- The first bytes of a text never compare above the text. -/
theorem strcmp_take_le (y : Texto) (k : Nat) : strcmp (y.take k) y ≤ 0 := by
  induction y generalizing k with
  | nil => simp [strcmp]
  | cons a as ih =>
    cases k with
    | zero => simp [strcmp]
    | succ k => simpa [strcmp] using ih k

theorem strcmp_lt_of_le_of_lt {a b c : Texto} (hab : strcmp a b ≤ 0) (hbc : strcmp b c < 0) :
    strcmp a c < 0 := by
  by_cases h : strcmp a b < 0
  · exact strcmp_trans h hbc
  · have h0 : strcmp a b = 0 := by omega
    rw [strcmp_eq_zero.mp h0]
    exact hbc

/-- A text above everything stored in a right chain is hung at its end. -/
theorem inserirPista_cadeiaDireita (ys : List Texto) (x : Texto)
    (h : ∀ y ∈ ys, strcmp y x < 0) :
    inserirPista (cadeiaDireita ys) x = cadeiaDireita (ys ++ [strncpy x 99]) := by
  induction ys with
  | nil => rfl
  | cons y ys ih =>
    have hyx : strcmp y x < 0 := h y (List.mem_cons_self y ys)
    have hpos : 0 < strcmp x y := strcmp_pos_iff.mpr hyx
    have hnot : ¬ strcmp x y < 0 := by omega
    have e := ih (fun z hz => h z (List.mem_cons_of_mem y hz))
    show inserirPista (.node y .nil (cadeiaDireita ys)) x
      = .node y .nil (cadeiaDireita (ys ++ [strncpy x 99]))
    simp only [inserirPista, hnot, if_false, gt_iff_lt, hpos, if_true, e]

/-- A text below everything stored in a left chain is hung at its end. -/
theorem inserirPista_cadeiaEsquerda (ys : List Texto) (x : Texto)
    (h : ∀ y ∈ ys, strcmp x y < 0) :
    inserirPista (cadeiaEsquerda ys) x = cadeiaEsquerda (ys ++ [strncpy x 99]) := by
  induction ys with
  | nil => rfl
  | cons y ys ih =>
    have hxy : strcmp x y < 0 := h y (List.mem_cons_self y ys)
    have e := ih (fun z hz => h z (List.mem_cons_of_mem y hz))
    show inserirPista (.node y (cadeiaEsquerda ys) .nil) x
      = .node y (cadeiaEsquerda (ys ++ [strncpy x 99])) .nil
    simp only [inserirPista, hxy, if_true, e]

theorem inserirTodas_cadeiaDireita (xs ys : List Texto) (hxs : Crescente xs)
    (h : ∀ y ∈ ys, ∀ x ∈ xs, strcmp y x < 0) :
    inserirTodas (cadeiaDireita ys) xs
      = cadeiaDireita (ys ++ xs.map (fun x => strncpy x 99)) := by
  induction xs generalizing ys with
  | nil => simp [inserirTodas]
  | cons x xs ih =>
    unfold Crescente at hxs
    rw [List.pairwise_cons] at hxs
    obtain ⟨hx, hrest⟩ := hxs
    simp only [inserirTodas, List.foldl_cons]
    rw [inserirPista_cadeiaDireita ys x (fun y hy => h y hy x (List.mem_cons_self x xs))]
    have h2 := ih (ys ++ [strncpy x 99]) hrest (by
      intro y hy z hz
      rcases List.mem_append.mp hy with hy | hy
      · exact h y hy z (List.mem_cons_of_mem x hz)
      · rw [List.mem_singleton] at hy
        subst hy
        exact strcmp_lt_of_le_of_lt (strcmp_take_le x 99) (hx z hz))
    simp only [inserirTodas] at h2
    rw [h2]
    simp

theorem inserirTodas_cadeiaEsquerda (xs ys : List Texto)
    (hxs : xs.Pairwise (fun a b => strcmp b a < 0)) (hlen : ∀ x ∈ xs, x.length ≤ 99)
    (h : ∀ y ∈ ys, ∀ x ∈ xs, strcmp x y < 0) :
    inserirTodas (cadeiaEsquerda ys) xs = cadeiaEsquerda (ys ++ xs) := by
  induction xs generalizing ys with
  | nil => simp [inserirTodas]
  | cons x xs ih =>
    rw [List.pairwise_cons] at hxs
    obtain ⟨hx, hrest⟩ := hxs
    simp only [inserirTodas, List.foldl_cons]
    rw [inserirPista_cadeiaEsquerda ys x (fun y hy => h y hy x (List.mem_cons_self x xs)),
      strncpy_curto (hlen x (List.mem_cons_self x xs))]
    have h2 := ih (ys ++ [x]) hrest (fun z hz => hlen z (List.mem_cons_of_mem x hz)) (by
      intro y hy z hz
      rcases List.mem_append.mp hy with hy | hy
      · exact h y hy z (List.mem_cons_of_mem x hz)
      · rw [List.mem_singleton] at hy
        subst hy
        exact hx z hz)
    simp only [inserirTodas] at h2
    rw [h2]
    simp

theorem cadeiaDireita_medidas (l : List Texto) :
    (cadeiaDireita l).contar = l.length ∧ (cadeiaDireita l).altura = l.length ∧
      (cadeiaDireita l).semEsquerda = true := by
  induction l with
  | nil => simp [cadeiaDireita, PistaNode.contar, PistaNode.altura, PistaNode.semEsquerda]
  | cons x xs ih =>
    obtain ⟨h1, h2, h3⟩ := ih
    refine ⟨?_, ?_, ?_⟩
    · simp [cadeiaDireita, PistaNode.contar, h1]; omega
    · simp [cadeiaDireita, PistaNode.altura, h2]; omega
    · simp [cadeiaDireita, PistaNode.semEsquerda, h3]

theorem cadeiaEsquerda_medidas (l : List Texto) :
    (cadeiaEsquerda l).contar = l.length ∧ (cadeiaEsquerda l).altura = l.length ∧
      (cadeiaEsquerda l).semDireita = true := by
  induction l with
  | nil => simp [cadeiaEsquerda, PistaNode.contar, PistaNode.altura, PistaNode.semDireita]
  | cons x xs ih =>
    obtain ⟨h1, h2, h3⟩ := ih
    refine ⟨?_, ?_, ?_⟩
    · simp [cadeiaEsquerda, PistaNode.contar, h1]; omega
    · simp [cadeiaEsquerda, PistaNode.altura, h2]; omega
    · simp [cadeiaEsquerda, PistaNode.semDireita, h3]

/-! ## Claim on degenerate insertion orders -/

/-- C15, as the code has it: inserting a strictly ascending sequence of `n`
texts of any length with `inserirPista` into the empty index gives the right
chain of their stored forms (each cut to 99 bytes), in the order given: `n`
nodes, height `n`, every left child absent. Inserting a strictly descending
sequence of `n` texts of at most 99 bytes each gives the left chain of the
texts in the order given: `n` nodes, height `n`, every right child absent.
Nothing is rebalanced. -/
theorem inserirTodas_ordenadas_da_cadeia (xs ys : List Texto) (hxs : Crescente xs)
    (hys : ys.Pairwise (fun a b => strcmp b a < 0)) (hlen : ∀ y ∈ ys, y.length ≤ 99) :
    (inserirTodas .nil xs = cadeiaDireita (xs.map (fun x => strncpy x 99)) ∧
      (inserirTodas .nil xs).contar = xs.length ∧
      (inserirTodas .nil xs).altura = xs.length ∧
      (inserirTodas .nil xs).semEsquerda = true) ∧
    (inserirTodas .nil ys = cadeiaEsquerda ys ∧
      (inserirTodas .nil ys).contar = ys.length ∧
      (inserirTodas .nil ys).altura = ys.length ∧
      (inserirTodas .nil ys).semDireita = true) := by
  have h1 : inserirTodas .nil xs = cadeiaDireita (xs.map (fun x => strncpy x 99)) := by
    have h := inserirTodas_cadeiaDireita xs [] hxs (by simp)
    simpa [cadeiaDireita] using h
  have h2 : inserirTodas .nil ys = cadeiaEsquerda ys := by
    have h := inserirTodas_cadeiaEsquerda ys [] hys hlen (by simp)
    simpa [cadeiaEsquerda] using h
  have m1 := cadeiaDireita_medidas (xs.map (fun x => strncpy x 99))
  have m2 := cadeiaEsquerda_medidas ys
  rw [h1, h2]
  simp only [List.length_map] at m1
  exact ⟨⟨rfl, m1⟩, ⟨rfl, m2⟩⟩

/-- C15 at the ascending texts `a`, `ab`, `b` and the descending texts `c`,
`b`, `a`. -/
theorem inserirTodas_ordenadas_da_cadeia_witness :
    Crescente [[97], [97, 98], [98]] ∧
      List.Pairwise (fun a b => strcmp b a < 0) [[99], [98], [97]] ∧
      (∀ y ∈ [[99], [98], [97]], List.length y ≤ 99) ∧
      inserirTodas .nil [[97], [97, 98], [98]]
        = .node [97] .nil (.node [97, 98] .nil (.node [98] .nil .nil)) ∧
      inserirTodas .nil [[99], [98], [97]]
        = .node [99] (.node [98] (.node [97] .nil .nil) .nil) .nil ∧
      (inserirTodas .nil [[97], [97, 98], [98]]).altura = 3 ∧
      (inserirTodas .nil [[99], [98], [97]]).semDireita = true :=
  ⟨by decide, by decide, by decide, by decide, by decide,
    (inserirTodas_ordenadas_da_cadeia [[97], [97, 98], [98]] [[99], [98], [97]]
      (by decide) (by decide) (by decide)).1.2.2.1,
    (inserirTodas_ordenadas_da_cadeia [[97], [97, 98], [98]] [[99], [98], [97]]
      (by decide) (by decide) (by decide)).2.2.2.2⟩

/-- C15 fails as stated: the text of 101 bytes `a` followed by the text of 100
bytes `a` is a strictly descending sequence, yet the second text compares above
the 99 bytes stored for the first and becomes the right child of the root: not
every right child is absent. -/
theorem inserirTodas_decrescente_longa :
    bemFormado (List.replicate 101 97) ∧ bemFormado (List.replicate 100 97) ∧
      List.Pairwise (fun a b => strcmp b a < 0) [List.replicate 101 97, List.replicate 100 97] ∧
      inserirTodas .nil [List.replicate 101 97, List.replicate 100 97]
        = .node (List.replicate 99 97) .nil (.node (List.replicate 99 97) .nil .nil) ∧
      (inserirTodas .nil [List.replicate 101 97, List.replicate 100 97]).semDireita = false := by
  decide

end Detective

namespace Quest

open Detective (Direcao Caminho Escolha)
open Detective.Escolha

/-! ## How the plain navigator ends -/

theorem laco_de_terminado (mapa : Sala) (s : Estado) (cs : List Escolha)
    (h : terminou mapa s = true) : laco mapa s cs = (s, cs) := by
  cases cs <;> simp [laco, h]

theorem verificar_folha (mapa : Sala) (s : Estado) (h : (mapa.em s.atual).folha = true) :
    verificar mapa s = { s with situacao := .semSaida } := by
  unfold verificar
  rw [if_pos (by simpa [Sala.folha] using h)]

theorem verificar_nao_folha (mapa : Sala) (s : Estado) (h : (mapa.em s.atual).folha = false) :
    verificar mapa s = s := by
  unfold verificar
  rw [if_neg (by simpa [Sala.folha] using h)]

theorem explorando_de_nao_terminou {mapa : Sala} {s : Estado} (h : terminou mapa s = false) :
    s.situacao = .explorando ∧ (mapa.em s.atual).presente = true := by
  simpa [terminou] using h

theorem terminou_semSaida (mapa : Sala) (s : Estado) :
    terminou mapa { s with situacao := .semSaida } = true := by
  simp [terminou]

theorem terminou_saiu (mapa : Sala) (s : Estado) :
    terminou mapa { s with situacao := .saiu } = true := by
  simp [terminou]

theorem mover_nao_terminou (mapa : Sala) (s : Estado) (c : Escolha)
    (hs : terminou mapa s = false) (hc : c ≠ sair) : terminou mapa (mover mapa s c) = false := by
  obtain ⟨h1, h2⟩ := explorando_de_nao_terminou hs
  have hp := mover_presente mapa s c h2
  have hsit : (mover mapa s c).situacao = .explorando := by
    cases c with
    | sair => exact absurd rfl hc
    | invalida => exact h1
    | esquerda => simp only [mover]; split <;> exact h1
    | direita => simp only [mover]; split <;> exact h1
  simp [terminou, hp, hsit]

/-- At a room without children the loop ends at once and reads nothing. -/
theorem laco_folha (mapa : Sala) (s : Estado) (cs : List Escolha)
    (hs : terminou mapa s = false) (hf : (mapa.em s.atual).folha = true) :
    laco mapa s cs = ({ s with situacao := .semSaida }, cs) := by
  cases cs with
  | nil => simp [laco, hs, verificar_folha mapa s hf]
  | cons c cs => simp [laco, hs, verificar_folha mapa s hf, terminou_semSaida]

/-- At a room with a child the loop reads the next choice. -/
theorem laco_nao_folha (mapa : Sala) (s : Estado) (c : Escolha) (cs : List Escolha)
    (hs : terminou mapa s = false) (hf : (mapa.em s.atual).folha = false) :
    laco mapa s (c :: cs) = laco mapa (mover mapa s c) cs := by
  simp [laco, hs, verificar_nao_folha mapa s hf]

/-- The loop ends in the dead-end state exactly in a room without children,
and ends through `sair` only when `sair` was in the input. -/
theorem laco_fim (mapa : Sala) (cs : List Escolha) (s : Estado) (hs : terminou mapa s = false) :
    ((laco mapa s cs).1.situacao = .semSaida ↔
        (mapa.em (laco mapa s cs).1.atual).folha = true) ∧
      ((laco mapa s cs).1.situacao = .saiu → sair ∈ cs) := by
  induction cs generalizing s with
  | nil =>
    obtain ⟨h1, _⟩ := explorando_de_nao_terminou hs
    by_cases hf : (mapa.em s.atual).folha = true
    · rw [laco_folha mapa s [] hs hf]
      simp [hf]
    · have hf2 : (mapa.em s.atual).folha = false := by simpa using hf
      simp [laco, hs, verificar_nao_folha mapa s hf2, h1, hf2]
  | cons c cs ih =>
    obtain ⟨h1, _⟩ := explorando_de_nao_terminou hs
    by_cases hf : (mapa.em s.atual).folha = true
    · rw [laco_folha mapa s (c :: cs) hs hf]
      simp [hf]
    · have hf2 : (mapa.em s.atual).folha = false := by simpa using hf
      rw [laco_nao_folha mapa s c cs hs hf2]
      by_cases hc : c = sair
      · subst hc
        have e : mover mapa s sair = { s with situacao := .saiu } := rfl
        rw [e, laco_de_terminado mapa _ cs (terminou_saiu mapa s)]
        simp [hf2]
      · obtain ⟨i1, i2⟩ := ih (mover mapa s c) (mover_nao_terminou mapa s c hs hc)
        exact ⟨i1, fun h => List.mem_cons_of_mem c (i2 h)⟩

end Quest

namespace Quest

open Detective (Direcao Caminho Escolha)
open Detective.Escolha

/-! ## Claim on the ends of the plain navigator -/

/-- C12: in `explorarSalas`, on every map with a present root and every finite
choice sequence, the run is in the dead-end state at its end exactly when the
room it is in has neither a left nor a right child, and it is in the exit
state only if stop was in the input. From any state in which the loop is
running: in a room without children the loop ends in the dead-end state with
all of the input still unread (so a map whose root is such a room ends at once,
nothing read); in a room with at least one child the loop waits when there is
no input, ends in the exit state on stop with the rest of the input unread,
and on any other choice goes on to its next iteration, not ended. -/
theorem explorarSalas_fim (mapa : Sala) (cs : List Escolha) (s : Estado)
    (hm : mapa.presente = true) (hs : terminou mapa s = false) :
    (((explorarSalas mapa cs).1.situacao = .semSaida ↔
        (mapa.em (explorarSalas mapa cs).1.atual).folha = true) ∧
      ((explorarSalas mapa cs).1.situacao = .saiu → sair ∈ cs) ∧
      (mapa.folha = true →
        explorarSalas mapa cs = ({ atual := [], situacao := .semSaida }, cs))) ∧
    ((mapa.em s.atual).folha = true →
      laco mapa s cs = ({ s with situacao := .semSaida }, cs)) ∧
    ((mapa.em s.atual).folha = false →
      laco mapa s [] = (s, []) ∧
        laco mapa s (sair :: cs) = ({ s with situacao := .saiu }, cs) ∧
        ∀ c, c ≠ sair →
          laco mapa s (c :: cs) = laco mapa (mover mapa s c) cs ∧
            terminou mapa (mover mapa s c) = false) := by
  have h0 : terminou mapa { atual := [], situacao := .explorando } = false := by
    simpa [terminou, Sala.em] using hm
  refine ⟨⟨(laco_fim mapa cs _ h0).1, (laco_fim mapa cs _ h0).2, ?_⟩, ?_, ?_⟩
  · intro hf
    exact laco_folha mapa _ cs h0 (by simpa [Sala.em] using hf)
  · exact laco_folha mapa s cs hs
  · intro hf
    refine ⟨?_, ?_, ?_⟩
    · simp [laco, hs, verificar_nao_folha mapa s hf]
    · rw [laco_nao_folha mapa s sair cs hs hf]
      exact laco_de_terminado mapa _ cs (terminou_saiu mapa s)
    · intro c hc
      exact ⟨laco_nao_folha mapa s c cs hs hf, mover_nao_terminou mapa s c hs hc⟩

/-- C12 on a map whose root has a left child only, that child having no
children: after right (refused) and left the run is at a dead end with stop
still unread; on the one-room map nothing is read. -/
theorem explorarSalas_fim_witness :
    (Sala.node [72] (.node [83] .nil .nil) .nil).presente = true ∧
      terminou (.node [72] (.node [83] .nil .nil) .nil)
        { atual := [.esquerda], situacao := .explorando } = false ∧
      explorarSalas (.node [72] (.node [83] .nil .nil) .nil) [direita, esquerda, sair]
        = ({ atual := [.esquerda], situacao := .semSaida }, [sair]) ∧
      explorarSalas (.node [72] .nil .nil) [esquerda, sair]
        = ({ atual := [], situacao := .semSaida }, [esquerda, sair]) ∧
      explorarSalas (.node [72] (.node [83] .nil .nil) .nil) [direita, sair, esquerda]
        = ({ atual := [], situacao := .saiu }, [esquerda]) ∧
      laco (.node [72] (.node [83] .nil .nil) .nil)
          { atual := [.esquerda], situacao := .explorando } [direita, esquerda, sair]
        = ({ atual := [.esquerda], situacao := .semSaida }, [direita, esquerda, sair]) :=
  ⟨by decide, by decide, by decide, by decide, by decide,
    (explorarSalas_fim (.node [72] (.node [83] .nil .nil) .nil) [direita, esquerda, sair]
      { atual := [.esquerda], situacao := .explorando } (by decide) (by decide)).2.1
      (by decide)⟩

end Quest

namespace Detective

open Escolha

/-! ## Sequences of rooms with repetitions dropped -/

theorem distintas_cons_cons (a b : Caminho) (l : List Caminho) :
    distintas (a :: b :: l) = if a = b then distintas (b :: l) else a :: distintas (b :: l) := by
  rw [distintas]

theorem distintas_head (b : Caminho) (l : List Caminho) :
    ∃ r, distintas (b :: l) = b :: r := by
  induction l generalizing b with
  | nil => exact ⟨[], rfl⟩
  | cons c l ih =>
    rw [distintas_cons_cons]
    by_cases h : b = c
    · subst h
      simpa using ih b
    · exact ⟨distintas (c :: l), by simp [h]⟩

/-- Putting a room in front of a sequence: it is dropped exactly when the
sequence, repetitions dropped, already starts with it. -/
theorem distintas_cons (a : Caminho) (l : List Caminho) :
    distintas (a :: l)
      = if (distintas l).head? = some a then distintas l else a :: distintas l := by
  cases l with
  | nil => simp [distintas]
  | cons b l =>
    obtain ⟨r, hr⟩ := distintas_head b l
    rw [distintas_cons_cons, hr]
    by_cases h : a = b
    · simp [h]
    · have h2 : ¬ b = a := fun e => h e.symm
      simp [h, h2]

theorem distintas_cons_congr (a : Caminho) {l1 l2 : List Caminho}
    (h : distintas l1 = distintas l2) : distintas (a :: l1) = distintas (a :: l2) := by
  rw [distintas_cons, distintas_cons, h]

theorem distintas_cons_of_eq (a : Caminho) {l : List Caminho} (h : distintas l = [a]) :
    distintas (a :: l) = [a] := by
  rw [distintas_cons, h]
  simp

theorem mem_of_mem_distintas {p : Caminho} {l : List Caminho} (h : p ∈ distintas l) : p ∈ l := by
  induction l with
  | nil => simp [distintas] at h
  | cons a l ih =>
    rw [distintas_cons] at h
    split at h
    · exact List.mem_cons_of_mem a (ih h)
    · rcases List.mem_cons.mp h with h | h
      · exact h ▸ List.mem_cons_self a l
      · exact List.mem_cons_of_mem a (ih h)

theorem desce_trans {p q r : Caminho} (h1 : Desce p q) (h2 : DesceMais q r) : DesceMais p r := by
  obtain ⟨t, rfl⟩ := h1
  obtain ⟨u, hu, rfl⟩ := h2
  exact ⟨t ++ u, by simp [hu], by simp⟩

theorem desceMais_irrefl (p : Caminho) : ¬ DesceMais p p := by
  rintro ⟨t, ht, h⟩
  have : p ++ [] = p ++ t := by simpa using h
  exact ht (List.append_cancel_left this).symm

/-- In a sequence of rooms that only goes down, the rooms left after dropping
repetitions go strictly down: none comes twice. -/
theorem distintas_desceMais (l : List Caminho) (h : l.Pairwise Desce) :
    (distintas l).Pairwise DesceMais := by
  induction l with
  | nil => simp [distintas]
  | cons a l ih =>
    rw [List.pairwise_cons] at h
    obtain ⟨ha, hl⟩ := h
    have ihl := ih hl
    cases l with
    | nil => simp [distintas]
    | cons b l =>
      rw [distintas_cons_cons]
      by_cases hab : a = b
      · simpa [hab] using ihl
      · simp only [hab, if_false, List.pairwise_cons]
        refine ⟨?_, ihl⟩
        intro x hx
        have hxl : x ∈ b :: l := mem_of_mem_distintas hx
        have hax : Desce a x := ha x hxl
        obtain ⟨t, ht⟩ := hax
        refine ⟨t, ?_, ht⟩
        intro ht0
        subst ht0
        simp only [List.append_nil] at ht
        subst ht
        -- `x = a` lies in `b :: l`, at or below `b`, while `b` is at or below `a`
        obtain ⟨u, hu⟩ := ha b (List.mem_cons_self b l)
        rcases List.mem_cons.mp hxl with hxb | hxl2
        · exact hab hxb
        · rw [List.pairwise_cons] at hl
          obtain ⟨v, hv⟩ := hl.1 x hxl2
          rw [hu, List.append_assoc] at hv
          have hnil : u ++ v = [] := by
            have : x ++ [] = x ++ (u ++ v) := by simpa using hv
            exact (List.append_cancel_left this).symm
          have hu0 : u = [] := (List.append_eq_nil.mp hnil).1
          rw [hu0, List.append_nil] at hu
          exact hab hu.symm

theorem nodup_of_desceMais {l : List Caminho} (h : l.Pairwise DesceMais) : l.Nodup := by
  unfold List.Nodup
  exact h.imp (fun {a b} hab heq => by subst heq; exact desceMais_irrefl a hab)

end Detective

namespace Detective

open Escolha

/-! ## Moves of the clue-collecting navigator go down the map -/

theorem Sala.altura_filho_lt (m : Sala) (d : Direcao) (h : m.presente = true) :
    (m.filho d).altura < m.altura := by
  cases m with
  | nil => simp [Sala.presente] at h
  | node n p e r =>
    cases d <;> simp only [Sala.filho, Sala.altura] <;> omega

/-- A room reached by a path of length `k` has at most `altura - k` levels at
and below it. -/
theorem Sala.comprimento_mais_altura (m : Sala) (p : Caminho)
    (h : (m.em p).presente = true) : p.length + (m.em p).altura ≤ m.altura := by
  induction p generalizing m with
  | nil => simp [Sala.em]
  | cons d p ih =>
    rw [Sala.em_cons] at h ⊢
    have hm : m.presente = true := by
      cases m with
      | nil => simp [Sala.filho, Sala.em_nil, Sala.presente] at h
      | node n c e r => rfl
    have h1 := ih (m.filho d) h
    have h2 := Sala.altura_filho_lt m d hm
    simp only [List.length_cons]
    omega

theorem Sala.forma_filho (m : Sala) (d : Direcao) : (m.filho d).forma = m.forma.filho d := by
  cases m with
  | nil => rfl
  | node n p e r => cases d <;> rfl

theorem Sala.forma_em (m : Sala) (q : Caminho) : (m.em q).forma = m.forma.em q := by
  induction q generalizing m with
  | nil => rfl
  | cons d q ih => rw [Sala.em_cons, Sala.em_cons, ih, Sala.forma_filho]

theorem Sala.altura_forma (m : Sala) : m.forma.altura = m.altura := by
  induction m with
  | nil => rfl
  | node n p e r ihe ihr => simp [Sala.forma, Sala.altura, ihe, ihr]

/-- Heights are read off the shape alone. -/
theorem Sala.altura_em_of_forma {m1 m2 : Sala} (h : m1.forma = m2.forma) (q : Caminho) :
    (m1.em q).altura = (m2.em q).altura := by
  rw [← Sala.altura_forma (m1.em q), ← Sala.altura_forma (m2.em q), Sala.forma_em,
    Sala.forma_em, h]

/-- An iteration leaves the navigator where it was or takes it to a present
child of the room it was in. -/
theorem passo_atual (s : Estado) (c : Escolha) :
    (passo s c).atual = s.atual ∨
      ∃ d, (passo s c).atual = s.atual ++ [d] ∧ (s.sala.filho d).presente = true := by
  cases c with
  | sair => left; simp [passo, mover]
  | invalida => left; simp [passo, mover]
  | esquerda =>
    simp only [passo, mover]
    split
    · rename_i h
      right
      exact ⟨.esquerda, by simp, by rw [← descobrir_filho_presente]; exact h⟩
    · left; simp
  | direita =>
    simp only [passo, mover]
    split
    · rename_i h
      right
      exact ⟨.direita, by simp, by rw [← descobrir_filho_presente]; exact h⟩
    · left; simp

theorem passo_desce (s : Estado) (c : Escolha) : Desce s.atual (passo s c).atual := by
  rcases passo_atual s c with h | ⟨d, h, _⟩
  · exact ⟨[], by simp [h]⟩
  · exact ⟨[d], h⟩

/-- A move takes the navigator to a strictly lower subtree. -/
theorem passo_altura (s : Estado) (c : Escolha) (hs : s.terminou = false)
    (hc : (passo s c).atual ≠ s.atual) : (passo s c).sala.altura < s.sala.altura := by
  have hsp : s.sala.presente = true := by
    simp only [Estado.terminou, Bool.or_eq_false_iff, Bool.not_eq_false'] at hs
    exact hs.2
  rcases passo_atual s c with h | ⟨d, h, _⟩
  · exact absurd h hc
  · have hf : (passo s c).mapa.forma = s.mapa.forma := by
      simp [passo, descobrir_forma]
    have e : (passo s c).sala.altura = (s.sala.filho d).altura := by
      simp only [Estado.sala]
      rw [Sala.altura_em_of_forma hf, h, Sala.em_snoc]
    rw [e]
    exact Sala.altura_filho_lt _ d hsp

theorem desce_de_desce {p q r : Caminho} (h1 : Desce p q) (h2 : Desce q r) : Desce p r := by
  obtain ⟨t, rfl⟩ := h1
  obtain ⟨u, rfl⟩ := h2
  exact ⟨t ++ u, by simp⟩

/-- Every room stood in lies at or below the room the loop started in. -/
theorem visitadas_desce_do_inicio (cs : List Escolha) (s : Estado) (p : Caminho)
    (hp : p ∈ visitadas s cs) : Desce s.atual p := by
  induction cs generalizing s with
  | nil =>
    by_cases ht : s.terminou = true
    · simp [visitadas, ht] at hp
    · simp only [visitadas, ht, if_false, Bool.false_eq_true, List.mem_singleton] at hp
      exact ⟨[], by simp [hp]⟩
  | cons c cs ih =>
    by_cases ht : s.terminou = true
    · simp [visitadas, ht] at hp
    · simp only [visitadas, ht, if_false, Bool.false_eq_true, List.mem_cons] at hp
      rcases hp with hp | hp
      · exact ⟨[], by simp [hp]⟩
      · exact desce_de_desce (passo_desce s c) (ih (passo s c) hp)

/-- The rooms stood in, in order, only go down. -/
theorem visitadas_desce (cs : List Escolha) (s : Estado) :
    (visitadas s cs).Pairwise Desce := by
  induction cs generalizing s with
  | nil =>
    by_cases ht : s.terminou = true <;> simp [visitadas, ht]
  | cons c cs ih =>
    by_cases ht : s.terminou = true
    · simp [visitadas, ht]
    · simp only [visitadas, ht, if_false, Bool.false_eq_true, List.pairwise_cons]
      refine ⟨?_, ih (passo s c)⟩
      intro p hp
      exact desce_de_desce (passo_desce s c) (visitadas_desce_do_inicio cs (passo s c) p hp)

/-- The number of moves is the number of levels gone down. -/
theorem movimentos_comprimento (cs : List Escolha) (s : Estado) :
    movimentos s cs + s.atual.length = (laco s cs).atual.length := by
  induction cs generalizing s with
  | nil =>
    by_cases ht : s.terminou = true <;> simp [movimentos, laco, ht]
  | cons c cs ih =>
    by_cases ht : s.terminou = true
    · simp [movimentos, laco, ht]
    · simp only [movimentos, laco, ht, if_false, Bool.false_eq_true]
      rw [← ih (passo s c)]
      rcases passo_atual s c with h | ⟨d, h, _⟩
      · simp [h]
      · have hne : (passo s c).atual ≠ s.atual := by
          rw [h]
          intro e
          have : (s.atual ++ [d]).length = s.atual.length := by rw [e]
          simp at this
        simp only [hne, if_false]
        rw [h]
        simp
        omega

/-- A run makes at most `altura - 1` moves. -/
theorem movimentos_le_altura (hall : Sala) (bst : PistaNode) (cs : List Escolha) :
    movimentos (inicio hall bst) cs ≤ hall.altura - 1 := by
  by_cases hp : hall.presente = true
  · have h1 := movimentos_comprimento cs (inicio hall bst)
    have h2 : (laco (inicio hall bst) cs).sala.presente = true :=
      laco_sala_presente cs (inicio hall bst) hp
    have h3 := laco_presente cs (inicio hall bst) (laco (inicio hall bst) cs).atual
    have h4 : (hall.em (laco (inicio hall bst) cs).atual).presente = true :=
      h3.symm.trans h2
    have h5 := Sala.comprimento_mais_altura hall _ h4
    have h6 : 1 ≤ (hall.em (laco (inicio hall bst) cs).atual).altura := by
      cases hq : hall.em (laco (inicio hall bst) cs).atual with
      | nil => rw [hq] at h4; simp [Sala.presente] at h4
      | node n c e r => simp only [Sala.altura]; omega
    simp only [inicio, List.length_nil, Nat.add_zero] at h1
    simp only [inicio] at h5 h6 ⊢
    omega
  · have ht : (inicio hall bst).terminou = true := by
      simp only [Estado.terminou, Estado.sala, inicio, Sala.em, List.foldl_nil]
      simpa using hp
    cases cs <;> simp [movimentos, ht]

end Detective

namespace Quest

open Detective (Direcao Caminho Escolha Desce DesceMais)
open Detective.Escolha

/-! ## Moves of the plain navigator go down the map -/

theorem Sala.em_de_nil (c : Caminho) : Sala.nil.em c = .nil := by
  induction c with
  | nil => rfl
  | cons d c ih => simpa [Sala.em, Sala.filho] using ih

theorem Sala.em_de_cons (m : Sala) (d : Direcao) (c : Caminho) :
    m.em (d :: c) = (m.filho d).em c := rfl

theorem Sala.altura_filho_menor (m : Sala) (d : Direcao) (h : m.presente = true) :
    (m.filho d).altura < m.altura := by
  cases m with
  | nil => simp [Sala.presente] at h
  | node n e r =>
    cases d <;> simp only [Sala.filho, Sala.altura] <;> omega

theorem Sala.niveis_mais_altura (m : Sala) (p : Caminho)
    (h : (m.em p).presente = true) : p.length + (m.em p).altura ≤ m.altura := by
  induction p generalizing m with
  | nil => simp [Sala.em]
  | cons d p ih =>
    rw [Sala.em_de_cons] at h ⊢
    have hm : m.presente = true := by
      cases m with
      | nil => simp [Sala.filho, Sala.em_de_nil, Sala.presente] at h
      | node n e r => rfl
    have h1 := ih (m.filho d) h
    have h2 := Sala.altura_filho_menor m d hm
    simp only [List.length_cons]
    omega

/-- A move step leaves the navigator where it was or takes it to a present
child of the room it was in. -/
theorem mover_atual (mapa : Sala) (s : Estado) (c : Escolha) :
    (mover mapa s c).atual = s.atual ∨
      ∃ d, (mover mapa s c).atual = s.atual ++ [d] ∧
        ((mapa.em s.atual).filho d).presente = true := by
  cases c with
  | sair => left; rfl
  | invalida => left; rfl
  | esquerda =>
    simp only [mover]
    split
    · rename_i h
      right
      exact ⟨.esquerda, rfl, h⟩
    · left; rfl
  | direita =>
    simp only [mover]
    split
    · rename_i h
      right
      exact ⟨.direita, rfl, h⟩
    · left; rfl

theorem mover_desce (mapa : Sala) (s : Estado) (c : Escolha) :
    Desce s.atual (mover mapa s c).atual := by
  rcases mover_atual mapa s c with h | ⟨d, h, _⟩
  · exact ⟨[], by simp [h]⟩
  · exact ⟨[d], h⟩

/-- A move takes the navigator to a strictly lower subtree. -/
theorem mover_altura (mapa : Sala) (s : Estado) (c : Escolha)
    (hs : terminou mapa s = false) (hc : (mover mapa s c).atual ≠ s.atual) :
    (mapa.em (mover mapa s c).atual).altura < (mapa.em s.atual).altura := by
  obtain ⟨_, hp⟩ := explorando_de_nao_terminou hs
  rcases mover_atual mapa s c with h | ⟨d, h, _⟩
  · exact absurd h hc
  · rw [h, Sala.em_snoc_quest]
    exact Sala.altura_filho_menor _ d hp

theorem visitadas_abaixo_do_inicio (mapa : Sala) (cs : List Escolha) (s : Estado) (p : Caminho)
    (hp : p ∈ visitadas mapa s cs) : Desce s.atual p := by
  induction cs generalizing s with
  | nil =>
    simp only [visitadas] at hp
    split at hp
    · simp at hp
    · rw [List.mem_singleton] at hp
      exact ⟨[], by simp [hp]⟩
  | cons c cs ih =>
    simp only [visitadas] at hp
    split at hp
    · simp at hp
    · split at hp
      · rw [List.mem_singleton] at hp
        exact ⟨[], by simp [hp]⟩
      · rcases List.mem_cons.mp hp with hp | hp
        · exact ⟨[], by simp [hp]⟩
        · exact Detective.desce_de_desce (mover_desce mapa s c) (ih (mover mapa s c) hp)

/-- The rooms stood in, in order, only go down. -/
theorem visitadas_so_desce (mapa : Sala) (cs : List Escolha) (s : Estado) :
    (visitadas mapa s cs).Pairwise Desce := by
  induction cs generalizing s with
  | nil =>
    simp only [visitadas]
    split <;> simp
  | cons c cs ih =>
    simp only [visitadas]
    split
    · simp
    · split
      · simp
      · rw [List.pairwise_cons]
        refine ⟨?_, ih (mover mapa s c)⟩
        intro p hp
        exact Detective.desce_de_desce (mover_desce mapa s c)
          (visitadas_abaixo_do_inicio mapa cs (mover mapa s c) p hp)

/-- The number of moves is the number of levels gone down. -/
theorem movimentos_niveis (mapa : Sala) (cs : List Escolha) (s : Estado) :
    movimentos mapa s cs + s.atual.length = (laco mapa s cs).1.atual.length := by
  induction cs generalizing s with
  | nil =>
    simp only [movimentos, laco]
    split <;> simp
  | cons c cs ih =>
    simp only [movimentos, laco]
    split
    · simp
    · split
      · simp
      · rw [← ih (mover mapa s c)]
        rcases mover_atual mapa s c with h | ⟨d, h, _⟩
        · simp [h]
        · have hne : (mover mapa s c).atual ≠ s.atual := by
            rw [h]
            intro e
            have : (s.atual ++ [d]).length = s.atual.length := by rw [e]
            simp at this
          simp only [hne, if_false]
          rw [h]
          simp
          omega

/-- A run makes at most `altura - 1` moves. -/
theorem movimentos_limite (mapa : Sala) (cs : List Escolha) :
    movimentos mapa inicio cs ≤ mapa.altura - 1 := by
  by_cases hp : mapa.presente = true
  · have h1 := movimentos_niveis mapa cs inicio
    have h4 : (mapa.em (laco mapa inicio cs).1.atual).presente = true :=
      laco_sala_atual_presente mapa cs inicio hp
    have h5 := Sala.niveis_mais_altura mapa _ h4
    have h6 : 1 ≤ (mapa.em (laco mapa inicio cs).1.atual).altura := by
      cases hq : mapa.em (laco mapa inicio cs).1.atual with
      | nil => rw [hq] at h4; simp [Sala.presente] at h4
      | node n e r => simp only [Sala.altura]; omega
    simp only [inicio, List.length_nil, Nat.add_zero] at h1
    simp only [inicio] at h5 h6 ⊢
    omega
  · have ht : terminou mapa inicio = true := by
      simp only [terminou, inicio, Sala.em, List.foldl_nil]
      simpa using hp
    cases cs <;> simp [movimentos, ht]

end Quest

namespace Detective

open Escolha

theorem desce_refl (p : Caminho) : Desce p p := ⟨[], by simp⟩

/-- The room the loop ends in lies at or below the room it started in. -/
theorem laco_desce (cs : List Escolha) (s : Estado) : Desce s.atual (laco s cs).atual := by
  induction cs generalizing s with
  | nil =>
    by_cases ht : s.terminou = true <;> simp [laco, ht, desce_refl]
  | cons c cs ih =>
    by_cases ht : s.terminou = true
    · simp [laco, ht, desce_refl]
    · simp only [laco, ht, if_false, Bool.false_eq_true]
      exact desce_de_desce (passo_desce s c) (ih (passo s c))

/-- Every room stood in lies on the way from the root to the room the run
ends in. -/
theorem visitadas_acima_do_fim (cs : List Escolha) (s : Estado) (p : Caminho)
    (hp : p ∈ visitadas s cs) : Desce p (laco s cs).atual := by
  induction cs generalizing s with
  | nil =>
    by_cases ht : s.terminou = true
    · simp [visitadas, ht] at hp
    · simp only [visitadas, ht, if_false, Bool.false_eq_true, List.mem_singleton] at hp
      rw [hp]
      exact laco_desce [] s
  | cons c cs ih =>
    by_cases ht : s.terminou = true
    · simp [visitadas, ht] at hp
    · simp only [visitadas, ht, if_false, Bool.false_eq_true, List.mem_cons] at hp
      rcases hp with hp | hp
      · rw [hp]
        exact laco_desce (c :: cs) s
      · simp only [laco, ht, if_false, Bool.false_eq_true]
        exact ih (passo s c) hp

end Detective

namespace Quest

open Detective (Direcao Caminho Escolha Desce DesceMais)
open Detective.Escolha

/-- The room the loop ends in lies at or below the room it started in. -/
theorem laco_so_desce (mapa : Sala) (cs : List Escolha) (s : Estado) :
    Desce s.atual (laco mapa s cs).1.atual := by
  induction cs generalizing s with
  | nil =>
    simp only [laco]
    split
    · exact Detective.desce_refl _
    · simpa using Detective.desce_refl s.atual
  | cons c cs ih =>
    simp only [laco]
    split
    · exact Detective.desce_refl _
    · split
      · simpa using Detective.desce_refl s.atual
      · exact Detective.desce_de_desce (mover_desce mapa s c) (ih (mover mapa s c))

/-- Every room stood in lies on the way from the root to the room the run
ends in. -/
theorem visitadas_no_caminho_do_fim (mapa : Sala) (cs : List Escolha) (s : Estado)
    (p : Caminho) (hp : p ∈ visitadas mapa s cs) : Desce p (laco mapa s cs).1.atual := by
  induction cs generalizing s with
  | nil =>
    simp only [visitadas] at hp
    split at hp
    · simp at hp
    · rw [List.mem_singleton] at hp
      rw [hp]
      exact laco_so_desce mapa [] s
  | cons c cs ih =>
    simp only [visitadas] at hp
    split at hp
    · simp at hp
    · rename_i h1
      split at hp
      · rw [List.mem_singleton] at hp
        rw [hp]
        exact laco_so_desce mapa (c :: cs) s
      · rename_i h2
        rcases List.mem_cons.mp hp with hp | hp
        · rw [hp]
          exact laco_so_desce mapa (c :: cs) s
        · simp only [laco, h1, h2, if_false]
          exact ih (mover mapa s c) hp

end Quest

namespace Detective

open Escolha

/-! ## Claim on the direction of moves -/

/-- C17: in both navigators an iteration of the loop leaves the current room
where it was or takes it to a present child of that room, and then the
subtree under the current room is strictly lower than before. On every map and
every finite choice sequence: the rooms stood in, in order, only go down, and
each lies on the way from the root to the room the run ends in; with
repetitions dropped they go strictly down, so no room comes twice; and the
number of iterations that changed the current room is at most the height of
the map minus one, whatever the length of the choice sequence. -/
theorem navegadores_so_descem (hall : Sala) (bst : PistaNode) (mapa : Quest.Sala)
    (cs : List Escolha) (s : Estado) (q : Quest.Estado) (c : Escolha)
    (hs : s.terminou = false) (hq : Quest.terminou mapa q = false) :
    (((passo s c).atual = s.atual ∨
        ∃ d, (passo s c).atual = s.atual ++ [d] ∧ (s.sala.filho d).presente = true) ∧
      ((passo s c).atual ≠ s.atual → (passo s c).sala.altura < s.sala.altura) ∧
      (visitadas (inicio hall bst) cs).Pairwise Desce ∧
      (∀ p ∈ visitadas (inicio hall bst) cs,
        Desce p (explorarSalasComPistas hall bst cs).atual) ∧
      (distintas (visitadas (inicio hall bst) cs)).Pairwise DesceMais ∧
      (distintas (visitadas (inicio hall bst) cs)).Nodup ∧
      movimentos (inicio hall bst) cs = (explorarSalasComPistas hall bst cs).atual.length ∧
      movimentos (inicio hall bst) cs ≤ hall.altura - 1) ∧
    (((Quest.mover mapa q c).atual = q.atual ∨
        ∃ d, (Quest.mover mapa q c).atual = q.atual ++ [d] ∧
          ((mapa.em q.atual).filho d).presente = true) ∧
      ((Quest.mover mapa q c).atual ≠ q.atual →
        (mapa.em (Quest.mover mapa q c).atual).altura < (mapa.em q.atual).altura) ∧
      (Quest.visitadas mapa Quest.inicio cs).Pairwise Desce ∧
      (∀ p ∈ Quest.visitadas mapa Quest.inicio cs,
        Desce p (Quest.explorarSalas mapa cs).1.atual) ∧
      (distintas (Quest.visitadas mapa Quest.inicio cs)).Pairwise DesceMais ∧
      (distintas (Quest.visitadas mapa Quest.inicio cs)).Nodup ∧
      Quest.movimentos mapa Quest.inicio cs = (Quest.explorarSalas mapa cs).1.atual.length ∧
      Quest.movimentos mapa Quest.inicio cs ≤ mapa.altura - 1) := by
  have d1 := distintas_desceMais _ (visitadas_desce cs (inicio hall bst))
  have d2 := distintas_desceMais _ (Quest.visitadas_so_desce mapa cs Quest.inicio)
  refine ⟨⟨passo_atual s c, passo_altura s c hs, visitadas_desce cs (inicio hall bst),
      visitadas_acima_do_fim cs (inicio hall bst), d1, nodup_of_desceMais d1, ?_,
      movimentos_le_altura hall bst cs⟩,
    ⟨Quest.mover_atual mapa q c, Quest.mover_altura mapa q c hq,
      Quest.visitadas_so_desce mapa cs Quest.inicio,
      Quest.visitadas_no_caminho_do_fim mapa cs Quest.inicio, d2, nodup_of_desceMais d2, ?_,
      Quest.movimentos_limite mapa cs⟩⟩
  · have h := movimentos_comprimento cs (inicio hall bst)
    simpa [inicio, explorarSalasComPistas] using h
  · have h := Quest.movimentos_niveis mapa cs Quest.inicio
    simpa [Quest.inicio, Quest.explorarSalas] using h

/-- C17 on the map of `main` (height 5) and on a three-level map of Quest.c,
with a long input that tries every direction again and again. -/
theorem navegadores_so_descem_witness :
    (inicio mansao .nil).terminou = false ∧
      Quest.terminou (.node [72] (.node [83] .nil (.node [69] .nil .nil)) .nil) Quest.inicio
        = false ∧
      mansao.altura = 5 ∧
      visitadas (inicio mansao .nil)
          [direita, direita, esquerda, invalida, direita, direita, esquerda, sair]
        = [[], [.direita], [.direita], [.direita, .esquerda], [.direita, .esquerda],
            [.direita, .esquerda, .direita], [.direita, .esquerda, .direita],
            [.direita, .esquerda, .direita]] ∧
      movimentos (inicio mansao .nil)
          [direita, direita, esquerda, invalida, direita, direita, esquerda, sair] = 3 ∧
      Quest.movimentos (.node [72] (.node [83] .nil (.node [69] .nil .nil)) .nil) Quest.inicio
          [direita, esquerda, esquerda, direita, direita, sair] = 2 ∧
      movimentos (inicio mansao .nil)
          [direita, direita, esquerda, invalida, direita, direita, esquerda, sair]
        ≤ mansao.altura - 1 :=
  ⟨by decide, by decide, by decide, by decide, by decide, by decide,
    (navegadores_so_descem mansao .nil
      (.node [72] (.node [83] .nil (.node [69] .nil .nil)) .nil)
      [direita, direita, esquerda, invalida, direita, direita, esquerda, sair]
      (inicio mansao .nil) Quest.inicio esquerda (by decide) (by decide)).1.2.2.2.2.2.2.2⟩

end Detective

namespace Quest

open Detective (Direcao Caminho Escolha distintas)
open Detective.Escolha

/-! ## The two navigators side by side -/

theorem Sala.deDetective_filho (m : Detective.Sala) (d : Direcao) :
    (Sala.deDetective m).filho d = Sala.deDetective (m.filho d) := by
  cases m with
  | nil => rfl
  | node n p e r => cases d <;> rfl

theorem Sala.deDetective_em (m : Detective.Sala) (p : Caminho) :
    (Sala.deDetective m).em p = Sala.deDetective (m.em p) := by
  induction p generalizing m with
  | nil => rfl
  | cons d p ih =>
    rw [Sala.em_de_cons, Detective.Sala.em_cons, Sala.deDetective_filho, ih]

theorem Sala.deDetective_presente (m : Detective.Sala) :
    (Sala.deDetective m).presente = m.presente := by
  cases m <;> rfl

theorem Sala.deDetective_limparPista (m : Detective.Sala) (p : Caminho) :
    Sala.deDetective (m.limparPista p) = Sala.deDetective m := by
  induction m generalizing p with
  | nil => rfl
  | node n c e r ihe ihr =>
    cases p with
    | nil => rfl
    | cons d p =>
      cases d
      · simp [Detective.Sala.limparPista, Sala.deDetective, ihe]
      · simp [Detective.Sala.limparPista, Sala.deDetective, ihr]

theorem Sala.deDetective_descobrir (s : Detective.Estado) :
    Sala.deDetective (Detective.descobrir s).mapa = Sala.deDetective s.mapa := by
  unfold Detective.descobrir
  split
  · exact Sala.deDetective_limparPista s.mapa s.atual
  · rfl

/-- Whether the current room has a child in a given direction reads the same
in both programs. -/
theorem filho_presente_igual (s : Detective.Estado) (q : Estado) (d : Direcao)
    (ha : s.atual = q.atual) :
    (((Sala.deDetective s.mapa).em q.atual).filho d).presente
      = (s.sala.filho d).presente := by
  rw [Sala.deDetective_em, Sala.deDetective_filho, Sala.deDetective_presente, ← ha]
  rfl

theorem visitadas_de_terminado (mapa : Sala) (s : Estado) (cs : List Escolha)
    (h : terminou mapa s = true) : visitadas mapa s cs = [] := by
  cases cs <;> simp [visitadas, h]

end Quest

namespace Detective

open Escolha

/-- In a room without children the clue-collecting navigator stays put
whatever it is fed. -/
theorem laco_sem_filhos (cs : List Escolha) (s : Estado) (hs : s.terminou = false)
    (hf : ∀ d, (s.sala.filho d).presente = false) :
    (laco s cs).atual = s.atual ∧ distintas (visitadas s cs) = [s.atual] := by
  induction cs generalizing s with
  | nil => simp [laco, visitadas, hs, distintas]
  | cons c cs ih =>
    have hat : (passo s c).atual = s.atual := by
      rcases passo_atual s c with h | ⟨d, _, hd⟩
      · exact h
      · rw [hf d] at hd
        exact absurd hd (by simp)
    simp only [laco, visitadas, hs, if_false, Bool.false_eq_true]
    by_cases hc : c = sair
    · subst hc
      have ht : (passo s sair).terminou = true := by simp [passo, mover, Estado.terminou]
      rw [laco_terminou _ _ ht, visitadas_terminou _ _ ht]
      exact ⟨hat, rfl⟩
    · have hs2 := passo_nao_terminou s c hs hc
      have hf2 : ∀ d, ((passo s c).sala.filho d).presente = false := by
        intro d
        have e : (passo s c).mapa = (descobrir s).mapa := by simp [passo]
        simp only [Estado.sala, ← Sala.em_snoc, hat, e]
        rw [descobrir_presente, Sala.em_snoc]
        exact hf d
      obtain ⟨i1, i2⟩ := ih (passo s c) hs2 hf2
      rw [hat] at i1 i2
      exact ⟨i1, distintas_cons_of_eq s.atual i2⟩

end Detective

namespace Quest

/-- Every map of Quest.c is the shape of some map of Detective.c. -/
theorem Sala.deDetective_sobre (mapa : Sala) :
    ∃ hall : Detective.Sala, Sala.deDetective hall = mapa := by
  induction mapa with
  | nil => exact ⟨.nil, rfl⟩
  | node n e d ihe ihd =>
    obtain ⟨he, hhe⟩ := ihe
    obtain ⟨hd, hhd⟩ := ihd
    exact ⟨.node n [] he hd, by simp [Sala.deDetective, hhe, hhd]⟩

end Quest

namespace Detective

open Escolha

/-- From states in the same room of maps of the same shape, both loops
running, the two navigators end in the same room and enter the same rooms in
the same order. -/
theorem navegadores_em_paralelo (cs : List Escolha) (s : Estado) (q : Quest.Estado)
    (ha : s.atual = q.atual) (hs : s.terminou = false) (hq : q.situacao = .explorando) :
    (laco s cs).atual = (Quest.laco (Quest.Sala.deDetective s.mapa) q cs).1.atual ∧
      distintas (visitadas s cs)
        = distintas (Quest.visitadas (Quest.Sala.deDetective s.mapa) q cs) := by
  induction cs generalizing s q with
  | nil =>
    have hsp : s.sala.presente = true := by
      simp only [Estado.terminou, Bool.or_eq_false_iff, Bool.not_eq_false'] at hs
      exact hs.2
    have hqt : Quest.terminou (Quest.Sala.deDetective s.mapa) q = false := by
      have : ((Quest.Sala.deDetective s.mapa).em q.atual).presente = true := by
        rw [Quest.Sala.deDetective_em, Quest.Sala.deDetective_presente, ← ha]
        exact hsp
      simp [Quest.terminou, hq, this]
    simp [laco, visitadas, Quest.laco, Quest.visitadas, hs, hqt, ha]
  | cons c cs ih =>
    have hsp : s.sala.presente = true := by
      simp only [Estado.terminou, Bool.or_eq_false_iff, Bool.not_eq_false'] at hs
      exact hs.2
    have hqt : Quest.terminou (Quest.Sala.deDetective s.mapa) q = false := by
      have : ((Quest.Sala.deDetective s.mapa).em q.atual).presente = true := by
        rw [Quest.Sala.deDetective_em, Quest.Sala.deDetective_presente, ← ha]
        exact hsp
      simp [Quest.terminou, hq, this]
    by_cases hf : ((Quest.Sala.deDetective s.mapa).em q.atual).folha = true
    · -- a room without children: Quest.c ends here, Detective.c stays here
      have hfd : ∀ d, (s.sala.filho d).presente = false := by
        intro d
        rw [← Quest.filho_presente_igual s q d ha]
        simp only [Quest.Sala.folha, Bool.and_eq_true, Bool.not_eq_true'] at hf
        cases d
        · exact hf.1
        · exact hf.2
      obtain ⟨l1, l2⟩ := laco_sem_filhos (c :: cs) s hs hfd
      rw [l1, l2, Quest.laco_folha _ q (c :: cs) hqt hf]
      have hv : Quest.visitadas (Quest.Sala.deDetective s.mapa) q (c :: cs) = [q.atual] := by
        simp [Quest.visitadas, hqt, Quest.verificar_folha _ q hf, Quest.terminou_semSaida]
      rw [hv]
      simp [ha, distintas]
    · have hf2 : ((Quest.Sala.deDetective s.mapa).em q.atual).folha = false := by
        simpa using hf
      have hver := Quest.verificar_nao_folha _ q hf2
      rw [Quest.laco_nao_folha _ q c cs hqt hf2]
      have hv : Quest.visitadas (Quest.Sala.deDetective s.mapa) q (c :: cs)
          = q.atual :: Quest.visitadas (Quest.Sala.deDetective s.mapa)
              (Quest.mover (Quest.Sala.deDetective s.mapa) q c) cs := by
        simp [Quest.visitadas, hqt, hver]
      rw [hv]
      simp only [laco, visitadas, hs, if_false, Bool.false_eq_true]
      by_cases hc : c = sair
      · subst hc
        have ht : (passo s sair).terminou = true := by simp [passo, mover, Estado.terminou]
        have e : Quest.mover (Quest.Sala.deDetective s.mapa) q sair
            = { q with situacao := .saiu } := rfl
        rw [laco_terminou _ _ ht, visitadas_terminou _ _ ht, e,
          Quest.laco_de_terminado _ _ cs (Quest.terminou_saiu _ q),
          Quest.visitadas_de_terminado _ _ cs (Quest.terminou_saiu _ q)]
        simp [passo, mover, ha]
      · have hs2 := passo_nao_terminou s c hs hc
        have hm2 : Quest.Sala.deDetective (passo s c).mapa = Quest.Sala.deDetective s.mapa := by
          have e : (passo s c).mapa = (descobrir s).mapa := by simp [passo]
          rw [e, Quest.Sala.deDetective_descobrir]
        have hq2 : (Quest.mover (Quest.Sala.deDetective s.mapa) q c).situacao = .explorando :=
          (Quest.explorando_de_nao_terminou
            (Quest.mover_nao_terminou _ q c hqt hc)).1
        have ha2 : (passo s c).atual
            = (Quest.mover (Quest.Sala.deDetective s.mapa) q c).atual := by
          cases c with
          | sair => exact absurd rfl hc
          | invalida => simpa [passo, mover, Quest.mover] using ha
          | esquerda =>
            simp only [passo, mover, Quest.mover, descobrir_filho_presente,
              Quest.filho_presente_igual s q .esquerda ha]
            split <;> simp [ha]
          | direita =>
            simp only [passo, mover, Quest.mover, descobrir_filho_presente,
              Quest.filho_presente_igual s q .direita ha]
            split <;> simp [ha]
        obtain ⟨i1, i2⟩ := ih (passo s c) _ ha2 hs2 hq2
        rw [hm2] at i1 i2
        refine ⟨i1, ?_⟩
        rw [← ha]
        exact distintas_cons_congr s.atual i2

/-- Without `sair` in its input the clue-collecting navigator is still going,
wherever it stands. -/
theorem laco_nao_terminou (cs : List Escolha) (s : Estado) (hs : s.terminou = false)
    (hc : sair ∉ cs) : (laco s cs).terminou = false := by
  induction cs generalizing s with
  | nil => simp [laco, hs, descobrir_terminou]
  | cons c cs ih =>
    simp only [laco, hs, if_false, Bool.false_eq_true]
    have h1 : c ≠ sair := fun e => hc (e ▸ List.mem_cons_self c cs)
    have h2 : sair ∉ cs := fun e => hc (List.mem_cons_of_mem c e)
    exact ih (passo s c) (passo_nao_terminou s c hs h1) h2

/-! ## Claim on the agreement of the two navigators -/

/-- C13: on every map of Detective.c and the map of Quest.c of the same shape,
and for every finite choice sequence, the rooms entered one after another by
`explorarSalasComPistas` (the rooms of its iterations, repetitions dropped) are
the rooms entered by `explorarSalas`, and both runs are in the same room at the
end. When the root is present and the sequence holds stop,
`explorarSalasComPistas` has returned through stop; without stop in the input
it is still going wherever it stands, a room without children included, which
is where `explorarSalas` ends by itself. -/
theorem navegadores_concordam (hall : Sala) (bst : PistaNode) (cs : List Escolha) :
    distintas (visitadas (inicio hall bst) cs)
        = distintas (Quest.visitadas (Quest.Sala.deDetective hall) Quest.inicio cs) ∧
      (explorarSalasComPistas hall bst cs).atual
        = (Quest.explorarSalas (Quest.Sala.deDetective hall) cs).1.atual ∧
      (hall.presente = true → sair ∈ cs → (explorarSalasComPistas hall bst cs).saiu = true) ∧
      (hall.presente = true → sair ∉ cs →
        (explorarSalasComPistas hall bst cs).terminou = false) ∧
      (hall.presente = true → (Quest.Sala.deDetective hall).folha = true →
        (Quest.explorarSalas (Quest.Sala.deDetective hall) cs).1.situacao = .semSaida) := by
  by_cases hp : hall.presente = true
  · have hs : (inicio hall bst).terminou = false := by
      simp only [Estado.terminou, Estado.sala, inicio, Sala.em, List.foldl_nil]
      simp [hp]
    obtain ⟨h1, h2⟩ := navegadores_em_paralelo cs (inicio hall bst) Quest.inicio rfl hs rfl
    refine ⟨h2, h1, fun _ hc => laco_saiu cs (inicio hall bst) hp hc,
      fun _ hc => laco_nao_terminou cs (inicio hall bst) hs hc, ?_⟩
    intro _ hf
    have hq : Quest.terminou (Quest.Sala.deDetective hall) Quest.inicio = false := by
      simp [Quest.terminou, Quest.inicio, Quest.Sala.em, Quest.Sala.deDetective_presente, hp]
    have := Quest.laco_folha (Quest.Sala.deDetective hall) Quest.inicio cs hq
      (by simpa [Quest.inicio, Quest.Sala.em] using hf)
    simp [Quest.explorarSalas, Quest.inicio] at this ⊢
    rw [this]
  · have hs : (inicio hall bst).terminou = true := by
      simp only [Estado.terminou, Estado.sala, inicio, Sala.em, List.foldl_nil]
      simpa using hp
    have hq : Quest.terminou (Quest.Sala.deDetective hall) Quest.inicio = true := by
      simp only [Quest.terminou, Quest.inicio, Quest.Sala.em, List.foldl_nil,
        Quest.Sala.deDetective_presente]
      simpa using hp
    refine ⟨?_, ?_, fun h => absurd h hp, fun h => absurd h hp, fun h => absurd h hp⟩
    · rw [visitadas_terminou _ _ hs, Quest.visitadas_de_terminado _ _ _ hq]
    · simp only [explorarSalasComPistas, Quest.explorarSalas]
      rw [laco_terminou _ _ hs]
      have := Quest.laco_de_terminado (Quest.Sala.deDetective hall) Quest.inicio cs hq
      simp only [Quest.inicio] at this
      rw [this]
      rfl

/-- C13 on the map of `main` with the choices left, left, right, invalid,
stop: Quest.c ends by itself in the garden with three choices unread,
Detective.c stays there until stop. -/
theorem navegadores_concordam_witness :
    mansao.presente = true ∧
      sair ∈ [esquerda, esquerda, direita, invalida, sair] ∧
      distintas (visitadas (inicio mansao .nil) [esquerda, esquerda, direita, invalida, sair])
        = [[], [.esquerda], [.esquerda, .esquerda]] ∧
      Quest.explorarSalas (Quest.Sala.deDetective mansao)
          [esquerda, esquerda, direita, invalida, sair]
        = ({ atual := [.esquerda, .esquerda], situacao := .semSaida },
            [direita, invalida, sair]) ∧
      (explorarSalasComPistas mansao .nil
          [esquerda, esquerda, direita, invalida, sair]).atual = [.esquerda, .esquerda] ∧
      (explorarSalasComPistas mansao .nil
          [esquerda, esquerda, direita, invalida, sair]).saiu = true :=
  ⟨by decide, by decide, by decide, by decide, by decide,
    (navegadores_concordam mansao .nil [esquerda, esquerda, direita, invalida, sair]).2.2.1
      (by decide) (by decide)⟩

end Detective
